import Mathlib

/-!
Verification of the measurement-scheduling, protocol-parsing and
metric-evaluation pipeline of `toplev.py` (pmu-tools).

The Python source is shallowly embedded:
* global configuration flags (counter budget, grouping support, ring filter,
  `--force`, `-v`, csv/interval modes) become a `Cfg` record;
* the external event resolver (`ocperf`'s `emap`) is out of scope for the
  repository and is modelled from the spec as a partial map
  `emap : String → Option String` from dotted mnemonics to raw tokens, and
  a reverse map `getperf : String → String`;
* mutation of `Runner` fields becomes explicit state passing on `RunnerS`;
* fatal paths (`sys.exit`, `assert`) become the `Except SErr` monad;
* the mutual recursion `Runner.add` / `Runner.split_groups` is given an
  explicit fuel parameter; running out of fuel is the dedicated error
  `SErr.fuelOut`, so termination statements become "`fuelOut` is never hit".
-/

/-- Global configuration of one `toplev.py` run: the CPU capability probe
(`cpu.counters`, perf `group_support`), the command-line flags and modes.
The source reads these from globals; the model passes them explicitly. -/
structure Cfg where
  counters : Nat
  group_support : Bool
  ring_filter : Option String := none
  force : Bool := false
  print_all : Bool := false
  dont_hide : Bool := false
  csv : Option String := none
  logfile : Bool := false
  interval_mode : Bool := false
deriving DecidableEq

/-- `ingroup_events = frozenset(["cycles", "instructions", "ref-cycles"])`. -/
def ingroup_events : List String := ["cycles", "instructions", "ref-cycles"]

/-- The `fixed_counters` dict: fixed-purpose mnemonics and their perf names. -/
def fixed_counters : List (String × String) :=
  [("CPU_CLK_UNHALTED.THREAD", "cycles"),
   ("INST_RETIRED.ANY", "instructions"),
   ("CPU_CLK_UNHALTED.REF_TSC", "ref-cycles")]

/-- `fixed_set = frozenset(fixed_counters.keys())`. -/
def fixed_set : List String := fixed_counters.map Prod.fst

/-- `filter_string()`: maps the ring filter through `filter_to_perf`
(`kernel ↦ k`, `user ↦ u`); empty when no filter is set.  The source only
ever stores `"kernel"`/`"user"` in `ring_filter`. -/
def filter_string (cfg : Cfg) : String :=
  match cfg.ring_filter with
  | some "kernel" => "k"
  | some "user" => "u"
  | some _ => ""
  | none => ""

/-- `add_filter(s)`: suffix `":" + filter` on every event when a ring filter
is active, otherwise the set is unchanged. -/
def add_filter (cfg : Cfg) (s : List String) : List String :=
  if filter_string cfg ≠ "" then s.map (fun x => x ++ ":" ++ filter_string cfg) else s

/-- `len(set(xs) - set(add_filter(ingroup_events)))`: the number of distinct
events in `xs` that are not free fixed-purpose ("in-group") events; the
quantity the scheduler compares against the counter budget. -/
def needCounters (cfg : Cfg) (xs : List String) : Nat :=
  (xs.toFinset \ (add_filter cfg ingroup_events).toFinset).card

/-- `len(set(xs) - fixed_set)`, used by `num_non_fixed` on mnemonic names. -/
def fixedMinus (xs : List String) : Nat :=
  (xs.toFinset \ fixed_set.toFinset).card

/-- Errors of the embedded pipeline: fuel exhaustion of the modelled mutual
recursion, a failing Python `assert`, and `sys.exit`/uncaught exceptions. -/
inductive SErr where
  | fuelOut
  | assertFail
  | exitFail (msg : String)
deriving DecidableEq

instance {e a : Type} [DecidableEq e] [DecidableEq a] : DecidableEq (Except e a) := fun x y =>
  match x, y with
  | .error u, .error v =>
    if h : u = v then .isTrue (by rw [h]) else .isFalse (fun hc => by cases hc; exact h rfl)
  | .ok u, .ok v =>
    if h : u = v then .isTrue (by rw [h]) else .isFalse (fun hc => by cases hc; exact h rfl)
  | .error _, .ok _ => .isFalse (fun hc => by cases hc)
  | .ok _, .error _ => .isFalse (fun hc => by cases hc)

/-- `raw_event(i)`: fixed-purpose mnemonics map to their perf names (plus
ring-filter suffix); other dotted mnemonics go through the resolver `emap`;
an unknown mnemonic is fatal (`sys.exit(1)`, the error carries the
`"%s not found"` report) unless `--force` is set, in which case the
placeholder `"cycles"` is substituted; undotted names pass through.
`e.output(True, filter_string())` of the external resolver is absorbed
into the spec-modelled `emap`. -/
def raw_event (cfg : Cfg) (emap : String → Option String) (i : String) :
    Except SErr String :=
  if i.data.contains '.' then
    match (fixed_counters.lookup i) with
    | some v =>
        .ok (if filter_string cfg ≠ "" then v ++ ":" ++ filter_string cfg else v)
    | none =>
        match emap i with
        | none => if cfg.force then .ok "cycles" else .error (.exitFail (i ++ " not found"))
        | some out => .ok out
  else .ok i

/-- Fallible map over a list in the `Except` monad (explicit so proofs can
unfold it); `raw_events` is `mapME (raw_event ...)`. -/
def mapME (f : α → Except SErr β) : List α → Except SErr (List β)
  | [] => .ok []
  | a :: l =>
    match f a with
    | .error e => .error e
    | .ok b =>
      match mapME f l with
      | .error e => .error e
      | .ok r => .ok (b :: r)

/-- `raw_events(evlist)`: resolve every mnemonic. -/
def raw_events (cfg : Cfg) (emap : String → Option String) (l : List String) :
    Except SErr (List String) :=
  mapME (raw_event cfg emap) l

/-- Total version of `raw_event` (junk `""` on the fatal path), used to state
set-level properties; `RawTotal` says the fatal path is not taken. -/
def rawOf (cfg : Cfg) (emap : String → Option String) (i : String) : String :=
  match raw_event cfg emap i with
  | .ok r => r
  | .error _ => ""

/-- Every mnemonic in sight resolves (no `sys.exit` from `raw_event`). -/
def RawTotal (cfg : Cfg) (emap : String → Option String) (l : List String) : Prop :=
  ∀ i ∈ l, ∃ r, raw_event cfg emap i = .ok r

/-- The loop of `num_non_fixed`: grow `n` while the window `l[:n]` holds
fewer than `cpu.counters` distinct non-fixed names and `n < l.length`.
The loop body runs at most `l.length` times (each iteration needs
`n < l.length` and increments `n`), so `gas := l.length` rounds are exact;
the explicit bound keeps the recursion structural. -/
def nnfAux (cfg : Cfg) (l : List String) : Nat → Nat → Nat
  | 0, n => n
  | gas + 1, n =>
    if fixedMinus (l.take n) < cfg.counters ∧ n < l.length then
      nnfAux cfg l gas (n + 1)
    else n

/-- `num_non_fixed(l)`: size of the next single-level chunk; starts at the
counter budget and grows while fixed-purpose names ride along for free. -/
def num_non_fixed (cfg : Cfg) (l : List String) : Nat :=
  nnfAux cfg l l.length cfg.counters

/-- `c in s` on strings, via the character list (kernel-computable). -/
def strHas (s : String) (c : Char) : Bool := s.data.contains c

/-- Single-character split, the `str.split(sep)` of the source (all its
separators are one character): `"a,,b" ↦ ["a", "", "b"]`, `"" ↦ [""]`. -/
def splitChAux (c : Char) : List Char → List Char → List String
  | [], acc => [⟨acc.reverse⟩]
  | x :: xs, acc =>
    if x = c then ⟨acc.reverse⟩ :: splitChAux c xs [] else splitChAux c xs (x :: acc)

/-- `s.split(c)` for a one-character separator. -/
def splitCh (c : Char) (s : String) : List String := splitChAux c s.data []

/-- `s.startswith(p)` (kernel-computable). -/
def strStarts (s p : String) : Bool := p.data.isPrefixOf s.data

/-- `sep.join(l)`. -/
def strJoin (sep : String) : List String → String
  | [] => ""
  | [x] => x
  | x :: xs => x ++ sep ++ strJoin sep xs

/-- `s.upper()` (ASCII, as in the source's event names). -/
def strUpper (s : String) : String := ⟨s.data.map Char.toUpper⟩

/-- `s.lower()` (ASCII). -/
def strLower (s : String) : String := ⟨s.data.map Char.toLower⟩

/-- `s.endswith(p)`. -/
def strEnds (s p : String) : Bool := p.data.isSuffixOf s.data

/-- `s[:-n]` for `n ≤ len(s)`. -/
def strDropRight (s : String) (n : Nat) : String := ⟨s.data.take (s.data.length - n)⟩

/-- `s[1:]`. -/
def strDropFirst (s : String) : String := ⟨s.data.drop 1⟩

/-- `s.replace("\n", "\n\t")`. -/
def strReplaceNl (s : String) : String :=
  ⟨s.data.flatMap (fun c => if c = '\n' then ['\n', '\t'] else [c])⟩

/-- Python whitespace, as stripped by `str.strip`/`str.rstrip` and matched
by the regex class `\\s`. -/
def isPyWs (c : Char) : Bool :=
  c = ' ' ∨ c = '\t' ∨ c = '\n' ∨ c = '\r' ∨ c = '\x0b' ∨ c = '\x0c'

/-- `s.strip()`. -/
def strTrim (s : String) : String :=
  ⟨((s.data.dropWhile isPyWs).reverse.dropWhile isPyWs).reverse⟩

/-- First-occurrence deduplication worker: drop elements already `seen`. -/
def dedupFGo [DecidableEq α] (seen : List α) : List α → List α
  | [] => []
  | a :: l => if a ∈ seen then dedupFGo seen l else a :: dedupFGo (a :: seen) l

/-- First-occurrence deduplication (insertion order of a fresh dict key). -/
def dedupF [DecidableEq α] (l : List α) : List α := dedupFGo [] l

/-- Value associated to key `k` by the dict built from `a` zipped with `b`
(the last write wins, as in a Python dict). -/
def lastVal (a : List String) (b : List (String × Nat)) (k : String) :
    String × Nat :=
  match (a.zip b).reverse.find? (fun p => p.1 = k) with
  | some p => p.2
  | none => ("", 0)

/-- `dedup2(a, b)`: dedup `a` and keep `b` up to date, via the dict
`{a[i]: b[i]}`.  CPython 2 leaves the dict's key order unspecified; the
model fixes first-occurrence order (claims about the result are stated
order-insensitively where the source order is unspecified). -/
def dedup2 (a : List String) (b : List (String × Nat)) :
    List String × List (String × Nat) :=
  let ks := dedupF a
  (ks, ks.map (lastVal a b))

/-- `get_levels(evlev)`. -/
def get_levels (evlev : List (String × Nat)) : List Nat := evlev.map Prod.snd

/-- `get_names(evlev)`. -/
def get_names (evlev : List (String × Nat)) : List String := evlev.map Prod.fst

/-- `PerfFeatures.event_group(evlist)`: comma-join the events, wrapping in
braces when more than one counter is needed, the group fits the budget and
perf supports groups. -/
def event_group (cfg : Cfg) (evlist : List String) : String :=
  let need := needCounters cfg evlist
  let e := strJoin "," evlist
  if 1 < need ∧ need ≤ cfg.counters ∧ cfg.group_support then
    "\x7b" ++ e ++ "\x7d"
  else e

/-- A metric node as registered with `Runner.run`, before requirement
collection: its unique name, display level, and the `(event, level)` pairs
its `compute` declares through the `ev_append` callback.  The node's
formula itself is external (spec §1/§3) and irrelevant to scheduling. -/
structure Obj where
  name : String
  level : Nat
  declared : List (String × Nat)
deriving DecidableEq

/-- A node after `Runner.collect`: `evlevels` is the `ev_append`-deduplicated
requirement list, `evlist = get_names evlevels`, `evnum = raw_events evlist`
and `nc = len(set(evnum) - add_filter(ingroup_events))`. -/
structure CObj where
  name : String
  level : Nat
  evlevels : List (String × Nat)
  evnum : List String
  nc : Nat
deriving DecidableEq

/-- `obj.evlist`. -/
def CObj.evlist (co : CObj) : List String := get_names co.evlevels

/-- A node's IndexMap (`obj.res_map`): `(event, level)` requirement to
position in the global flat event list, as an association list where the
most recent write is first (Python dict assignment overwrites). -/
def ResMap : Type := List ((String × Nat) × Nat)

instance : DecidableEq ResMap := by unfold ResMap; infer_instance

/-- Dict assignment `rm[key] = v`. -/
def rmSet (rm : ResMap) (key : String × Nat) (v : Nat) : ResMap :=
  (key, v) :: rm.filter (fun p => p.1 ≠ key)

/-- Dict lookup. -/
def rmGet? (rm : ResMap) (key : String × Nat) : Option Nat :=
  match rm.find? (fun p => p.1 = key) with
  | some p => some p.2
  | none => none

/-- The scheduler's state: `Runner.evnum` (global flat event list),
`Runner.evstr`, the per-node IndexMaps keyed in registration order, plus
two ghost observables: `groups` records the deduplicated event list of each
flushed CounterGroup in emission order (one entry per `self.evstr +=
feat.event_group(...)` in `Runner.add`), and `nsplit` counts entries into
`Runner.split_groups`. -/
structure RunnerS where
  evnum : List String
  evstr : String
  groups : List (List String)
  nsplit : Nat
  objs : List (CObj × ResMap)
deriving DecidableEq

/-- Inner loop of `update_res_map` for one object: walk its `evlevels`,
re-resolve each mnemonic, and point the IndexMap entry at `base +
evnum.index(r)` when the resolved event is in this group's `evnum`. -/
def urmObj (cfg : Cfg) (emap : String → Option String) (evnum : List String)
    (base : Nat) : List (String × Nat) → ResMap → Except SErr ResMap
  | [], rm => .ok rm
  | lev :: rest, rm =>
    match raw_event cfg emap lev.1 with
    | .error e => .error e
    | .ok r =>
      urmObj cfg emap evnum base rest
        (if evnum.contains r then rmSet rm lev (base + evnum.indexOf r) else rm)

/-- `update_res_map(evnum, objl, base)`: update the IndexMap of every object
in the batch `objl` (identified by its unique name). -/
def update_res_map (cfg : Cfg) (emap : String → Option String)
    (evnum : List String) (objl : List String) (base : Nat) (st : RunnerS) :
    Except SErr RunnerS :=
  match mapME (fun co : CObj × ResMap =>
      if objl.contains co.1.name then
        match urmObj cfg emap evnum base co.1.evlevels co.2 with
        | .error e => .error e
        | .ok rm' => .ok (co.1, rm')
      else .ok co) st.objs with
  | .error e => .error e
  | .ok objs' => .ok { st with objs := objs' }

mutual

/-- `Runner.add(objl, evnum, evlev)`: assert the batch is non-empty; if its
distinct non-fixed events exceed the budget, fall back to
`Runner.split_groups`; otherwise flush it as one CounterGroup: dedup,
fill in IndexMaps at the current base offset, extend the global flat list
and the perf event string.  The first argument is fuel for the modelled
mutual recursion. -/
def Runner.add (cfg : Cfg) (emap : String → Option String) :
    Nat → RunnerS → List String → List String → List (String × Nat) →
    Except SErr RunnerS
  | 0, _, _, _, _ => .error .fuelOut
  | fuel + 1, st, objl, evnum, evlev =>
    if evlev = [] then .error .assertFail
    else if cfg.counters < needCounters cfg evnum then
      Runner.split_groups cfg emap fuel st objl evlev
    else
      match update_res_map cfg emap (dedup2 evnum evlev).1 objl st.evnum.length st with
      | .error e => .error e
      | .ok st' =>
        .ok { st' with
              evnum := st'.evnum ++ (dedup2 evnum evlev).1,
              evstr := if st'.evstr ≠ "" then
                         st'.evstr ++ "," ++ event_group cfg (dedup2 evnum evlev).1
                       else event_group cfg (dedup2 evnum evlev).1,
              groups := st'.groups ++ [(dedup2 evnum evlev).1] }

/-- `Runner.split_groups(objl, evlev)`: if a single level is left, fill
successive `num_non_fixed`-sized chunks (`Runner.fillGroups` is the `while
evlev:` loop); otherwise resubmit one sub-batch per level `1..max`. -/
def Runner.split_groups (cfg : Cfg) (emap : String → Option String) :
    Nat → RunnerS → List String → List (String × Nat) → Except SErr RunnerS
  | 0, _, _, _ => .error .fuelOut
  | fuel + 1, st, objl, evlev =>
    if (get_levels evlev).toFinset.card = 1 then
      Runner.fillGroups cfg emap fuel { st with nsplit := st.nsplit + 1 } objl evlev
    else
      Runner.levelLoop cfg emap fuel { st with nsplit := st.nsplit + 1 } objl evlev
        (List.range' 1 ((get_levels evlev).foldl max 0))

/-- The `for l in range(1, max_level + 1)` loop of `Runner.split_groups`:
resubmit the requirements of each level to `Runner.add`. -/
def Runner.levelLoop (cfg : Cfg) (emap : String → Option String) :
    Nat → RunnerS → List String → List (String × Nat) → List Nat →
    Except SErr RunnerS
  | 0, _, _, _, _ => .error .fuelOut
  | _ + 1, st, _, _, [] => .ok st
  | fuel + 1, st, objl, evlev, l :: ls =>
    if evlev.filter (fun x => x.2 = l) ≠ [] then
      match raw_events cfg emap (get_names (evlev.filter (fun x => x.2 = l))) with
      | .error e => .error e
      | .ok rs =>
        match Runner.add cfg emap fuel st objl rs
            (evlev.filter (fun x => x.2 = l)) with
        | .error e => .error e
        | .ok st' => Runner.levelLoop cfg emap fuel st' objl evlev ls
    else Runner.levelLoop cfg emap fuel st objl evlev ls

/-- The `while evlev:` chunking loop of `Runner.split_groups`: carve off the
next `num_non_fixed` requirements and `Runner.add` them. -/
def Runner.fillGroups (cfg : Cfg) (emap : String → Option String) :
    Nat → RunnerS → List String → List (String × Nat) → Except SErr RunnerS
  | 0, _, _, _ => .error .fuelOut
  | fuel + 1, st, objl, evlev =>
    if evlev = [] then .ok st
    else
      match raw_events cfg emap
          (get_names (evlev.take (num_non_fixed cfg (get_names evlev)))) with
      | .error e => .error e
      | .ok rs =>
        match Runner.add cfg emap fuel st objl rs
            (evlev.take (num_non_fixed cfg (get_names evlev))) with
        | .error e => .error e
        | .ok st' =>
          Runner.fillGroups cfg emap fuel st' objl
            (evlev.drop (num_non_fixed cfg (get_names evlev)))

end

/-- `cmp_obj(a, b) ≤ 0`: sort key is `(level, nc)` lexicographically. -/
def cmpLe (a b : CObj) : Prop := a.level < b.level ∨ (a.level = b.level ∧ a.nc ≤ b.nc)

instance (a b : CObj) : Decidable (cmpLe a b) := by
  unfold cmpLe; infer_instance

/-- Stable insertion used to model Python's stable `sorted(..., cmp=cmp_obj)`:
an element is inserted before the first strictly greater element, after
equal keys already in place. -/
def sortedInsert (a : CObj) : List CObj → List CObj
  | [] => [a]
  | b :: l => if cmpLe a b ∧ ¬ cmpLe b a then a :: b :: l else b :: sortedInsert a l

/-- Stable sort by `cmp_obj` (Python's `sorted` is stable). -/
def sortObjs : List CObj → List CObj
  | [] => []
  | a :: l => sortedInsert a (sortObjs l)

/-- Accumulator of `Runner.schedule`'s first-fit loop:
scheduler state plus `curobj` (as names), `curev`, `curlev`. -/
structure SchedAcc where
  st : RunnerS
  curobj : List String
  curev : List String
  curlev : List (String × Nat)

/-- One iteration of `Runner.schedule`'s loop: tentatively extend the current
group with `obj`'s events; flush and restart when the extended group needs
more than the budget and the current group is non-empty; commit `obj`. -/
def schedStep (cfg : Cfg) (emap : String → Option String) (fuel : Nat)
    (acc : SchedAcc) (obj : CObj) : Except SErr SchedAcc :=
  let newev := acc.curev ++ obj.evnum
  let newlev := acc.curlev ++ obj.evlevels
  let needed := needCounters cfg newev
  if cfg.counters < needed ∧ acc.curobj ≠ [] then
    match Runner.add cfg emap fuel acc.st acc.curobj acc.curev acc.curlev with
    | .error e => .error e
    | .ok st' => .ok ⟨st', [obj.name], obj.evnum, obj.evlevels⟩
  else .ok ⟨acc.st, acc.curobj ++ [obj.name], newev, newlev⟩

/-- The loop of `Runner.schedule` over the sorted object list. -/
def schedLoop (cfg : Cfg) (emap : String → Option String) (fuel : Nat) :
    SchedAcc → List CObj → Except SErr SchedAcc
  | acc, [] => .ok acc
  | acc, obj :: rest =>
    match schedStep cfg emap fuel acc obj with
    | .error e => .error e
    | .ok acc' => schedLoop cfg emap fuel acc' rest

/-- `Runner.schedule(out)`: sort the registered nodes by `cmp_obj`, first-fit
them into groups, and flush the final group if non-empty.  Starts from the
fresh `Runner` state (`evnum = []`, `evstr = ""`, empty IndexMaps as set by
`Runner.run`). -/
def Runner.schedule (cfg : Cfg) (emap : String → Option String) (fuel : Nat)
    (cobjs : List CObj) : Except SErr RunnerS :=
  match schedLoop cfg emap fuel
      ⟨⟨[], "", [], 0,
        cobjs.map (fun co => (co, ([] : List ((String × Nat) × Nat))))⟩,
       [], [], []⟩
      (sortObjs cobjs) with
  | .error e => .error e
  | .ok acc =>
    if acc.curobj ≠ [] then
      Runner.add cfg emap fuel acc.st acc.curobj acc.curev acc.curlev
    else .ok acc.st

/-- `Runner.collect()`: run each node's declaration pass (`ev_append`
deduplicates repeated `(event, level)` pairs, keeping first-seen order),
resolve `evlist` to `evnum` and compute `nc`. -/
def Runner.collect (cfg : Cfg) (emap : String → Option String)
    (objs : List Obj) : Except SErr (List CObj) :=
  mapME (fun o =>
    match raw_events cfg emap (get_names (dedupF o.declared)) with
    | .error e => .error e
    | .ok evnum =>
      .ok { name := o.name, level := o.level, evlevels := dedupF o.declared,
            evnum := evnum, nc := needCounters cfg evnum }) objs

/-- The main program's scheduling phase: `runner.collect()` followed by
`runner.schedule(out)`. -/
def runSchedule (cfg : Cfg) (emap : String → Option String) (fuel : Nat)
    (objs : List Obj) : Except SErr RunnerS :=
  match Runner.collect cfg emap objs with
  | .error e => .error e
  | .ok cobjs => Runner.schedule cfg emap fuel cobjs

/-! ### The measurement runner's streaming parser (`execute`) -/

/-- Output channels of the process: `sys.stdout`, `sys.stderr`, and the
`-o` logfile.  `Output` writes results to the logfile when `-o` is given
and to stderr otherwise; the ad-hoc diagnostics of `execute` go to stdout. -/
inductive Chan where
  | stdout
  | stderr
  | logf
deriving DecidableEq

/-- The stream `Output.logf` writes to (primary formatted result stream). -/
def outChan (cfg : Cfg) : Chan :=
  if cfg.logfile then Chan.logf else Chan.stderr

/-- Observable events of the modelled run: a printed line, a raw write, a
result bucket handed to `Runner.print_res` (timestamp, aggregation key and
the two parallel sequences), a result record passed to `Output.p`, and a
`Output.warning`. -/
inductive Ev where
  | line (c : Chan) (s : String)
  | raw (c : Chan) (s : String)
  | flush (ts : Option ℚ) (title : String) (vals : List ℚ) (evs : List String)
  | record (c : Chan) (area : Option String) (name : String) (val : ℚ)
      (ts : Option ℚ) (remark : String) (desc : String) (title : String)
  | warn (c : Chan) (s : String)
deriving DecidableEq

/-- Per-event error bookkeeping (`class Stat`): total observations and a
counter of error markers. -/
structure Stat where
  total : Nat
  errors : List (String × Nat)
deriving DecidableEq

/-- State of `execute`'s parsing loop: the per-key parallel sequences
`res`/`rev` (insertion-ordered association lists modelling the
`defaultdict(list)`s), the error accounting, and the interval bookkeeping
(`prev_interval` starts at `0.0`; `interval` starts as `None`). -/
structure PState where
  res : List (String × List ℚ)
  rev : List (String × List String)
  account : List (String × Stat)
  prev_interval : ℚ
  interval : Option ℚ
deriving DecidableEq

/-- The empty initial state of `execute`. -/
def pstate0 : PState := ⟨[], [], [], 0, none⟩

/-- `defaultdict(list)` append at a key. -/
def appendAt [DecidableEq κ] (m : List (κ × List α)) (k : κ) (v : α) :
    List (κ × List α) :=
  match m with
  | [] => [(k, [v])]
  | (k', l) :: rest =>
    if k' = k then (k', l ++ [v]) :: rest else (k', l) :: appendAt rest k v

/-- Lookup with the defaultdict default. -/
def lookupD [DecidableEq κ] [Inhabited α] (m : List (κ × α)) (k : κ) : α :=
  match m.find? (fun p => p.1 = k) with
  | some p => p.2
  | none => default

instance : Inhabited Stat := ⟨⟨0, []⟩⟩

/-- `Counter[msg] += 1` on the error tally. -/
def cbump (l : List (String × Nat)) (msg : String) : List (String × Nat) :=
  match l.find? (fun p => p.1 = msg) with
  | some _ => l.map (fun p => if p.1 = msg then (p.1, p.2 + 1) else p)
  | none => l ++ [(msg, 1)]

/-- `account[event].errors[msg] += 1` (defaultdict + Counter). -/
def bumpErr (acc : List (String × Stat)) (event msg : String) :
    List (String × Stat) :=
  match acc with
  | [] => [(event, ⟨0, [(msg, 1)]⟩)]
  | (e, st) :: rest =>
    if e = event then (e, ⟨st.total, cbump st.errors msg⟩) :: rest
    else (e, st) :: bumpErr rest event msg

/-- `account[event].total += 1`. -/
def bumpTotal (acc : List (String × Stat)) (event : String) :
    List (String × Stat) :=
  match acc with
  | [] => [(event, ⟨1, []⟩)]
  | (e, st) :: rest =>
    if e = event then (e, ⟨st.total + 1, st.errors⟩) :: rest
    else (e, st) :: bumpTotal rest event

/-- `event.rstrip()`. -/
def rstrip (s : String) : String :=
  ⟨(s.data.reverse.dropWhile isPyWs).reverse⟩

/-- Decimal-string to rational: `digits` or `digits.digits` (either side may
be empty, not both), the forms `float()` receives from perf's count and
timestamp fields.  Exponent or inf/nan spellings, which perf does not emit
in these fields, parse to `none` (modelled as the `ValueError` path). -/
def parseFloatQ (s : String) : Option ℚ :=
  let digits := fun (t : String) => t.data.all Char.isDigit
  let natOf : String → Nat := fun t => t.data.foldl (fun n c => 10 * n + (c.toNat - 48)) 0
  match splitCh '.' s with
  | [a] => if a ≠ "" ∧ digits a then some (Rat.divInt (natOf a : Int) 1) else none
  | [a, b] =>
    if (a ≠ "" ∨ b ≠ "") ∧ digits a ∧ digits b then
      some (Rat.divInt ((natOf a : Int) * 10 ^ b.length + (natOf b : Int))
              ((10 : Int) ^ b.length))
    else none
  | _ => none

/-- The interval prefix regex `\s*([0-9.]+),(.*)`: leading whitespace, a
non-empty greedy run of digits and dots, then a comma; returns the matched
number string and the rest of the line. -/
def tsSpan (l : String) : Option (String × String) :=
  let cs := l.data.dropWhile isPyWs
  let num := cs.takeWhile (fun c => c.isDigit ∨ c = '.')
  let rest := cs.dropWhile (fun c => c.isDigit ∨ c = '.')
  match rest with
  | ',' :: tail => if num ≠ [] then some (⟨num⟩, ⟨tail⟩) else none
  | _ => none

/-- `is_event`'s token test `re.match(r"(r[0-9a-f]+|cycles|instructions|ref-cycles)", s)`:
an anchored prefix match. -/
def isEventTok (s : String) : Bool :=
  (match s.data with
   | 'r' :: c :: _ => c.isDigit || (decide ('a' ≤ c) && decide (c ≤ 'f'))
   | _ => false) ||
  strStarts s "cycles" || strStarts s "instructions" || strStarts s "ref-cycles"

/-- `is_event(n, k)`. -/
def is_event (n : List String) (k : Nat) : Bool :=
  k < n.length ∧ isEventTok (n.getD k "")

/-- Shape dispatch of `execute` on the comma-split fields: `count,event`
first, then `key,width,count,event`, then `key,count,event`; yields
`(title, count, event)` or `none` for an unparseable line. -/
def shape (n : List String) : Option (String × String × String) :=
  if is_event n 1 then some ("", n.getD 0 "", n.getD 1 "")
  else if is_event n 3 then some (n.getD 0 "", n.getD 2 "", n.getD 3 "")
  else if is_event n 2 then some (n.getD 0 "", n.getD 1 "", n.getD 2 "")
  else none

/-- `count.replace("<", "").replace(">", "")`. -/
def stripAngles (s : String) : String :=
  ⟨s.data.filter (fun c => c ≠ '<' ∧ c ≠ '>')⟩

/-- Append one parsed `(val, event)` observation for `title`:
`account[event].total += 1; res[title].append(val); rev[title].append(event)`. -/
def accumObs (st : PState) (title event : String) (val : ℚ) : PState :=
  { st with
    account := bumpTotal st.account event,
    res := appendAt st.res title val,
    rev := appendAt st.rev title event }

/-- The field/count part of `execute`'s loop body, after any timestamp
prefix was stripped: split on commas, dispatch on the shape, parse the
count (numeric, `<...>` marker, or unparseable), and accumulate.
Unparseable lines are reported on stdout and skipped; a numeric-looking
count that `float()` cannot parse raises (`ValueError`), modelled as
`.error`. -/
def stepCore (st : PState) (l : String) : Except String (PState × List Ev) :=
  let n := splitCh ',' l
  match shape n with
  | none =>
    .ok (st, [.line .stdout "unparseable perf output", .raw .stdout l])
  | some (title, count, event0) =>
    let event := rstrip event0
    if (match count.data with | c :: _ => c.isDigit | [] => false) then
      match parseFloatQ count with
      | none => .error "ValueError: could not convert string to float"
      | some val => .ok (accumObs st title event val, [])
    else if strStarts count "<" then
      .ok (accumObs { st with account := bumpErr st.account event (stripAngles count) }
             title event 0, [])
    else
      .ok (st, [.line .stdout "unparseable perf count", .raw .stdout l])

/-- Stable insertion of a string into a sorted list. -/
def insStr (a : String) : List String → List String
  | [] => [a]
  | b :: l => if a ≤ b ∧ a ≠ b then a :: b :: l else b :: insStr a l

/-- Python `sorted` on string keys (insertion sort; keys are distinct here,
so any stable comparison sort agrees). -/
def sortStrings : List String → List String
  | [] => []
  | a :: l => insStr a (sortStrings l)

/-- The flush emitted on a timestamp change (and at end of stream): one
`Runner.print_res` call per aggregation key in sorted order, with the two
parallel sequences accumulated for that key. -/
def flushEvs (res : List (String × List ℚ)) (rev : List (String × List String))
    (ts : Option ℚ) : List Ev :=
  (sortStrings (res.map Prod.fst)).map
    (fun j => .flush ts j (lookupD res j) (lookupD rev j))

/-- The interval-mode head of `execute`'s loop body: match the timestamp
prefix; on a change from `prev_interval`, flush all buckets keyed by the
previous timestamp and restart accumulation; remember the timestamp and
hand back the line with the prefix stripped. -/
def intervalStep (cfg : Cfg) (st : PState) (l : String) :
    Except String (PState × List Ev × String) :=
  if cfg.interval_mode then
    match tsSpan l with
    | some (numStr, rest) =>
      match parseFloatQ numStr with
      | none => .error "ValueError: invalid interval timestamp"
      | some t =>
        if t ≠ st.prev_interval then
          if st.res ≠ [] then
            .ok (⟨[], [], st.account, t, some t⟩,
                 flushEvs st.res st.rev (some st.prev_interval), rest)
          else .ok ({ st with prev_interval := t, interval := some t }, [], rest)
        else .ok ({ st with interval := some t }, [], rest)
    | none => .ok (st, [], l)
  else .ok (st, [], l)

/-- One full iteration of `execute`'s read loop on one line. -/
def stepLine (cfg : Cfg) (st : PState) (l : String) :
    Except String (PState × List Ev) :=
  match intervalStep cfg st l with
  | .error e => .error e
  | .ok (st1, evs1, l1) =>
    match stepCore st1 l1 with
    | .error e => .error e
    | .ok (st2, evs2) => .ok (st2, evs1 ++ evs2)

/-- `execute`'s loop over the whole line stream. -/
def processLines (cfg : Cfg) : PState → List String → Except String (PState × List Ev)
  | st, [] => .ok (st, [])
  | st, l :: ls =>
    match stepLine cfg st l with
    | .error e => .error e
    | .ok (st1, e1) =>
      match processLines cfg st1 ls with
      | .error e => .error e
      | .ok (st2, e2) => .ok (st2, e1 ++ e2)

/-- `execute(events, runner, out)` restricted to its parsing effect: process
every line of the stream, then flush whatever is accumulated with the last
seen interval timestamp (`None` if no interval was ever seen). -/
def executeModel (cfg : Cfg) (lines : List String) :
    Except String (PState × List Ev) :=
  match processLines cfg pstate0 lines with
  | .error e => .error e
  | .ok (st, evs) => .ok (st, evs ++ flushEvs st.res st.rev st.interval)

/-! ### Output formatting and the aggregator/evaluator (`print_res`) -/

/-- Kernel-computable rational operations: ℚ's own `+`, `-`, `*` are
`@[irreducible]` in this toolchain, so the model uses `Rat.divInt` on
numerators and denominators; the results are definitionally the same
rational values. -/
def qAdd (a b : ℚ) : ℚ := Rat.divInt (a.num * b.den + b.num * a.den) (a.den * b.den)

/-- Subtraction, see `qAdd`. -/
def qSub (a b : ℚ) : ℚ := Rat.divInt (a.num * b.den - b.num * a.den) (a.den * b.den)

/-- Multiplication, see `qAdd`. -/
def qMul (a b : ℚ) : ℚ := Rat.divInt (a.num * b.num) (a.den * b.den)

theorem qAdd_eq (a b : ℚ) : qAdd a b = a + b := by
  rw [qAdd]
  rw [show a = Rat.divInt a.num a.den from (Rat.num_divInt_den a).symm,
      show b = Rat.divInt b.num b.den from (Rat.num_divInt_den b).symm]
  rw [Rat.divInt_add_divInt _ _ (Int.natCast_ne_zero.mpr a.den_nz)
        (Int.natCast_ne_zero.mpr b.den_nz)]
  simp [Rat.num_divInt_den, Int.natCast_mul]

theorem qSub_eq (a b : ℚ) : qSub a b = a - b := by
  rw [qSub]
  rw [show a = Rat.divInt a.num a.den from (Rat.num_divInt_den a).symm,
      show b = Rat.divInt b.num b.den from (Rat.num_divInt_den b).symm]
  rw [Rat.divInt_sub_divInt _ _ (Int.natCast_ne_zero.mpr a.den_nz)
        (Int.natCast_ne_zero.mpr b.den_nz)]
  simp [Rat.num_divInt_den, Int.natCast_mul]

theorem qMul_eq (a b : ℚ) : qMul a b = a * b := by
  rw [qMul]
  rw [show a = Rat.divInt a.num a.den from (Rat.num_divInt_den a).symm,
      show b = Rat.divInt b.num b.den from (Rat.num_divInt_den b).symm]
  rw [Rat.divInt_mul_divInt _ _ (Int.natCast_ne_zero.mpr a.den_nz)
        (Int.natCast_ne_zero.mpr b.den_nz)]
  simp [Rat.num_divInt_den, Int.natCast_mul]

/-- `MAX_ERROR = 0.05`. -/
def MAX_ERROR : ℚ := Rat.divInt 5 100

/-- `check_ratio(l)`: always plausible with `-v`/csv (`print_all`); otherwise
the value must lie in `(0 - MAX_ERROR, 1 + MAX_ERROR)`. -/
def check_ratio (cfg : Cfg) (l : ℚ) : Bool :=
  cfg.print_all ∨ (qSub 0 MAX_ERROR < l ∧ l < qAdd 1 MAX_ERROR)

/-- Left-justify to `n` columns (`"%-ns"`). -/
def padRight (s : String) (n : Nat) : String :=
  s ++ ⟨List.replicate (n - s.length) ' '⟩

/-- Right-justify to `n` columns (`"%ns"`). -/
def padLeft (s : String) (n : Nat) : String :=
  ⟨List.replicate (n - s.length) ' '⟩ ++ s

/-- Fixed-point rendering of a non-negative rational with `d` decimals,
rounding half up.  CPython's `%f` rounds the binary double half to even;
the two agree on every value this development states theorems about
(the difference would only surface at exact decimal ties). -/
def fmtFixedNN (x : ℚ) (d : Nat) : String :=
  let y := qAdd (qMul x (Rat.divInt (10 ^ d) 1)) (Rat.divInt 1 2)
  let m := y.num.toNat / y.den
  toString (m / 10 ^ d) ++ "." ++
    (let frac := toString (m % 10 ^ d)
     ⟨List.replicate (d - frac.length) '0'⟩ ++ frac)

/-- `"%2.2f" % x` (the minimum width 2 is always exceeded). -/
def fmtF2 (x : ℚ) : String :=
  if x < 0 then "-" ++ fmtFixedNN (-x) 2 else fmtFixedNN x 2

/-- `"%6.9f" % x` (nine decimals always exceed the minimum width 6). -/
def fmtF9 (x : ℚ) : String :=
  if x < 0 then "-" ++ fmtFixedNN (-x) 9 else fmtFixedNN x 9

/-- `fmtnum` in `Output.p`: `"%5s%%" % ("%2.2f" % (100.0 * l))`. -/
def fmtnum (l : ℚ) : String := padLeft (fmtF2 (qMul (Rat.divInt 100 1) l)) 5 ++ "%"

/-- Character-level worker of `squashWs`: the flag records whether the
previous character was whitespace (so a run collapses to one space). -/
def squashGo : Bool → List Char → List Char
  | _, [] => []
  | pw, c :: rest =>
    if isPyWs c then
      if pw then squashGo true rest else ' ' :: squashGo true rest
    else c :: squashGo false rest

/-- `re.sub(r"\s+", " ", desc)`. -/
def squashWs (s : String) : String := ⟨squashGo false s.data⟩

/-- `Output.s(area, hdr, s, remark, desc)`: the printed lines (without the
stream, which is `outChan`).  CSV mode joins the fields with the separator;
human mode left-justifies `area` to 7 and the header to 42 columns and
appends an indented description line when present. -/
def Output.s (cfg : Cfg) (area : Option String) (hdr s remark desc : String) :
    List String :=
  match cfg.csv with
  | some sep =>
    [hdr ++ sep ++ strTrim s ++ (sep ++ remark) ++ squashWs (sep ++ desc)]
  | none =>
    let hdr := match area with
      | some a => padRight a 7 ++ " " ++ hdr
      | none => hdr
    (padRight (hdr ++ ":") 42 ++ "\t" ++ s ++ " " ++ remark) ::
      (if desc ≠ "" then ["\t" ++ desc] else [])

/-- `Output.p(area, name, l, timestamp, remark, desc, title)`: the timestamp
(`if timestamp:` — `None` and `0.0` are both falsy) and title prefixes,
then either the formatted value with the caller's remark when
`check_ratio` accepts it, or a formatted zero flagged `"mismeasured"`. -/
def Output.p (cfg : Cfg) (area : Option String) (name : String) (l : ℚ)
    (ts : Option ℚ) (remark desc title : String) : List String :=
  let pre :=
    (match ts with
     | some t =>
       if t = 0 then "" else
         fmtF9 t ++ (match cfg.csv with | some c => c | none => " ")
     | none => "") ++
    (if title ≠ "" then
       match cfg.csv with
       | some c => title ++ c
       | none => padRight title 5
     else "")
  let lines :=
    if check_ratio cfg l then Output.s cfg area name (fmtnum l) remark desc
    else Output.s cfg area name (fmtnum 0) "mismeasured" ""
  match lines with
  | [] => [pre]
  | l1 :: rest => (pre ++ l1) :: rest

/-- `canon_event(e)`: drop a `:qualifier` suffix (the greedy `(.*):(.*)`
match splits at the last colon), map fixed-counter mnemonics to their perf
names, strip a trailing `_0`, lowercase. -/
def canon_event (e : String) : String :=
  let e1 :=
    match splitCh ':' e with
    | [] => e
    | [_] => e
    | parts => strJoin ":" parts.dropLast
  match fixed_counters.lookup (strUpper e1) with
  | some v => v
  | none =>
    let e2 := if strEnds e1 "_0" then strDropRight e1 2 else e1
    strLower e2

/-- `lookup_res(res, rev, ev, index)`: the defensive consistency check —
the canonical name of the event recorded at `index` must match the
requested mnemonic, else the `assert` aborts; out-of-range indices raise
`IndexError`.  `getperf` models `emap.getperf` (spec §2: the resolver's
reverse map from raw tokens to names). -/
def lookup_res (getperf : String → String) (res : List ℚ) (rev : List String)
    (ev : String) (index : Nat) : Except String ℚ :=
  if h : index < rev.length ∧ index < res.length then
    if canon_event (getperf (rev.get ⟨index, h.1⟩)) = canon_event ev then
      .ok (res.get ⟨index, h.2⟩)
    else .error "AssertionError"
  else .error "IndexError"

/-- A metric node as seen by the evaluation phase (`Runner.print_res`): its
IndexMap built by the scheduler, its current `thresh`/`val`, display
attributes, and its formula.  `compute` is modelled from the spec (§3:
`evaluate(resolve)` of the external ratio-model nodes): it receives the
resolver for `(event, level)` requirements and returns the node's new
`(value, active-threshold)` pair; exceptions propagate. -/
structure PObj where
  name : String
  area : Option String
  desc : String
  res_map : ResMap
  compute : ((String × Nat) → Except String ℚ) → Except String (ℚ × Bool)
  thresh : Bool
  val : ℚ

/-- The event resolver closure `print_res` passes to `obj.compute`:
`lambda e, level: lookup_res(res, rev, e, obj.res_map[(e, level)])`
(a missing IndexMap entry raises `KeyError`). -/
def nodeResolver (getperf : String → String) (res : List ℚ)
    (rev : List String) (rm : ResMap) : (String × Nat) → Except String ℚ :=
  fun el =>
    match rmGet? rm el with
    | some idx => lookup_res getperf res rev el.1 idx
    | none => .error "KeyError"

/-- Processing of one node in `Runner.print_res`: nodes with an IndexMap are
evaluated; the node is rendered when its threshold is set or `print_all`
is on (hiding the value unless `dont_hide`), and otherwise its threshold
is forcibly cleared so its children are hidden too; nodes without any
IndexMap entry produce a "not measured" warning (stderr, suppressed in
csv mode). -/
def pnode (cfg : Cfg) (getperf : String → String) (res : List ℚ)
    (rev : List String) (ts : Option ℚ) (title : String) (po : PObj) :
    Except String (PObj × List Ev) :=
  if po.res_map ≠ [] then
    match po.compute (nodeResolver getperf res rev po.res_map) with
    | .error e => .error e
    | .ok (v, th) =>
      let po := { po with val := v, thresh := th }
      if th ∨ cfg.print_all then
        let val := if ¬ th ∧ ¬ cfg.dont_hide then 0 else po.val
        .ok (po, [.record (outChan cfg) po.area po.name val ts
                    (if th then "above" else "below")
                    (strReplaceNl (strDropFirst po.desc)) title])
      else
        .ok ({ po with thresh := false }, [])
  else
    .ok (po, if cfg.csv = none then [.warn .stderr (po.name ++ " not measured")] else [])

/-- The loop of `Runner.print_res` over `self.olist`, threading the node
mutations and collecting the emitted records/warnings in order. -/
def printResAux (cfg : Cfg) (getperf : String → String) (res : List ℚ)
    (rev : List String) (ts : Option ℚ) (title : String) :
    List PObj → Except String (List PObj × List Ev)
  | [] => .ok ([], [])
  | po :: rest =>
    match pnode cfg getperf res rev ts title po with
    | .error e => .error e
    | .ok (po', e1) =>
      match printResAux cfg getperf res rev ts title rest with
      | .error e => .error e
      | .ok (rest', e2) => .ok (po' :: rest', e1 ++ e2)

/-- `Runner.print_res(res, rev, out, timestamp, title)`: complain when
nothing was measured, else process every registered node in order. -/
def Runner.print_res (cfg : Cfg) (getperf : String → String)
    (olist : List PObj) (res : List ℚ) (rev : List String) (ts : Option ℚ)
    (title : String) : Except String (List PObj × List Ev) :=
  if res.length = 0 then
    .ok (olist, [.line .stdout "Nothing measured?"])
  else printResAux cfg getperf res rev ts title olist

/-! ### Generic helper lemmas -/

theorem mapME_forall2 {f : α → Except SErr β} :
    ∀ {l : List α} {r : List β}, mapME f l = .ok r →
      List.Forall₂ (fun a b => f a = .ok b) l r := by
  intro l
  induction l with
  | nil => intro r h; simp only [mapME] at h; cases h; constructor
  | cons a t ih =>
    intro r h
    simp only [mapME] at h
    cases hfa : f a with
    | error e => rw [hfa] at h; cases h
    | ok b =>
      rw [hfa] at h
      cases hft : mapME f t with
      | error e => rw [hft] at h; cases h
      | ok rt => rw [hft] at h; cases h; exact List.Forall₂.cons hfa (ih hft)

theorem dedupFGo_mem [DecidableEq α] {a : α} :
    ∀ {l seen : List α}, a ∈ dedupFGo seen l ↔ (a ∈ l ∧ a ∉ seen) := by
  intro l
  induction l with
  | nil => intro seen; simp [dedupFGo]
  | cons b t ih =>
    intro seen
    by_cases hb : b ∈ seen
    · rw [dedupFGo, if_pos hb, ih]
      constructor
      · rintro ⟨h1, h2⟩; exact ⟨List.mem_cons_of_mem _ h1, h2⟩
      · rintro ⟨h1, h2⟩
        rcases List.mem_cons.mp h1 with rfl | h1
        · exact absurd hb h2
        · exact ⟨h1, h2⟩
    · rw [dedupFGo, if_neg hb]
      simp only [List.mem_cons, ih]
      constructor
      · rintro (rfl | ⟨h1, h2⟩)
        · exact ⟨Or.inl rfl, hb⟩
        · exact ⟨Or.inr h1, fun hc => h2 (Or.inr hc)⟩
      · rintro ⟨rfl | h1, h2⟩
        · exact Or.inl rfl
        · by_cases hab : a = b
          · exact Or.inl hab
          · exact Or.inr ⟨h1, by simp [hab, h2]⟩

theorem dedupF_mem [DecidableEq α] {a : α} {l : List α} : a ∈ dedupF l ↔ a ∈ l := by
  simp [dedupF, dedupFGo_mem]

theorem dedupFGo_nodup [DecidableEq α] :
    ∀ {l seen : List α}, (dedupFGo seen l).Nodup := by
  intro l
  induction l with
  | nil => intro seen; simp [dedupFGo]
  | cons b t ih =>
    intro seen
    by_cases hb : b ∈ seen
    · rw [dedupFGo, if_pos hb]; exact ih
    · rw [dedupFGo, if_neg hb]
      refine List.nodup_cons.mpr ⟨fun hc => ?_, ih⟩
      exact (dedupFGo_mem.mp hc).2 (List.mem_cons_self _ _)

theorem dedupF_nodup [DecidableEq α] {l : List α} : (dedupF l).Nodup := dedupFGo_nodup

theorem dedupF_toFinset [DecidableEq α] {l : List α} :
    (dedupF l).toFinset = l.toFinset := by
  ext a; simp [List.mem_toFinset, dedupF_mem]

theorem needCounters_congr {cfg : Cfg} {xs ys : List String}
    (h : xs.toFinset = ys.toFinset) : needCounters cfg xs = needCounters cfg ys := by
  simp [needCounters, h]

theorem needCounters_mono {cfg : Cfg} {xs ys : List String}
    (h : ∀ a ∈ xs, a ∈ ys) : needCounters cfg xs ≤ needCounters cfg ys := by
  unfold needCounters
  apply Finset.card_le_card
  apply Finset.sdiff_subset_sdiff _ le_rfl
  intro a ha
  simp only [List.mem_toFinset] at ha ⊢
  exact h a ha

theorem needCounters_le_length {cfg : Cfg} {xs : List String} :
    needCounters cfg xs ≤ xs.length := by
  unfold needCounters
  calc (xs.toFinset \ (add_filter cfg ingroup_events).toFinset).card
      ≤ xs.toFinset.card := Finset.card_le_card (Finset.sdiff_subset)
    _ ≤ xs.length := xs.toFinset_card_le

theorem fixedMinus_le_length {xs : List String} : fixedMinus xs ≤ xs.length := by
  unfold fixedMinus
  calc (xs.toFinset \ fixed_set.toFinset).card
      ≤ xs.toFinset.card := Finset.card_le_card (Finset.sdiff_subset)
    _ ≤ xs.length := xs.toFinset_card_le

/-- `num_non_fixed` never shrinks below the budget it starts from. -/
theorem nnfAux_ge {cfg : Cfg} {l : List String} :
    ∀ (gas n : Nat), n ≤ nnfAux cfg l gas n := by
  intro gas
  induction gas with
  | zero => intro n; rw [nnfAux]
  | succ gas ih =>
    intro n
    rw [nnfAux]
    split
    · exact Nat.le_trans (Nat.le_succ n) (ih (n + 1))
    · exact Nat.le_refl n

theorem num_non_fixed_ge {cfg : Cfg} {l : List String} :
    cfg.counters ≤ num_non_fixed cfg l := nnfAux_ge _ _

/-- The window returned by `num_non_fixed` stays within the budget: its
distinct non-fixed names never exceed `cpu.counters` (the loop only grows
the window while it is strictly below, one name at a time). -/
theorem nnfAux_window {cfg : Cfg} {l : List String} :
    ∀ (gas n : Nat), fixedMinus (l.take n) ≤ cfg.counters →
      fixedMinus (l.take (nnfAux cfg l gas n)) ≤ cfg.counters := by
  intro gas
  induction gas with
  | zero => intro n hn; rw [nnfAux]; exact hn
  | succ gas ih =>
    intro n hn
    rw [nnfAux]
    split
    · rename_i h
      apply ih
      have hstep : fixedMinus (l.take (n + 1)) ≤ fixedMinus (l.take n) + 1 := by
        unfold fixedMinus
        rw [List.take_succ, List.toFinset_append]
        have hsub : ((l.take n).toFinset ∪ l[n]?.toList.toFinset) \ fixed_set.toFinset ⊆
            ((l.take n).toFinset \ fixed_set.toFinset) ∪ l[n]?.toList.toFinset := by
          intro a ha
          simp only [Finset.mem_sdiff, Finset.mem_union] at ha ⊢
          tauto
        have hone : l[n]?.toList.toFinset.card ≤ 1 := by
          cases hn : l[n]? <;> simp
        calc (((l.take n).toFinset ∪ l[n]?.toList.toFinset) \ fixed_set.toFinset).card
            ≤ (((l.take n).toFinset \ fixed_set.toFinset) ∪ l[n]?.toList.toFinset).card :=
              Finset.card_le_card hsub
          _ ≤ ((l.take n).toFinset \ fixed_set.toFinset).card + l[n]?.toList.toFinset.card :=
              Finset.card_union_le _ _
          _ ≤ ((l.take n).toFinset \ fixed_set.toFinset).card + 1 := by omega
      have := h.1
      omega
    · exact hn

theorem num_non_fixed_window {cfg : Cfg} {l : List String} :
    fixedMinus (l.take (num_non_fixed cfg l)) ≤ cfg.counters := by
  apply nnfAux_window
  calc fixedMinus (l.take cfg.counters) ≤ (l.take cfg.counters).length :=
        fixedMinus_le_length
    _ ≤ cfg.counters := by
        rw [List.length_take]; omega

/-- A fixed-purpose mnemonic always resolves into the free in-group set. -/
theorem fixed_raw_ingroup {cfg : Cfg} {emap : String → Option String}
    {nm r : String} (hnm : nm ∈ fixed_set) (hr : raw_event cfg emap nm = .ok r) :
    r ∈ add_filter cfg ingroup_events := by
  have step : ∀ v : String, v ∈ ingroup_events →
      r = (if filter_string cfg ≠ "" then v ++ ":" ++ filter_string cfg else v) →
      r ∈ add_filter cfg ingroup_events := by
    intro v hv hrv
    by_cases hf : filter_string cfg = ""
    · subst hrv; simp [add_filter, hf, hv]
    · subst hrv
      simp only [add_filter, if_pos (by simpa using hf)]
      exact List.mem_map.mpr ⟨v, hv, rfl⟩
  simp only [fixed_set, fixed_counters, List.map, List.mem_cons,
    List.not_mem_nil, or_false] at hnm
  rcases hnm with rfl | rfl | rfl
  · have h1 : raw_event cfg emap "CPU_CLK_UNHALTED.THREAD" =
        .ok (if filter_string cfg ≠ "" then "cycles" ++ ":" ++ filter_string cfg
             else "cycles") := rfl
    rw [h1] at hr
    exact step "cycles" (by simp [ingroup_events]) (by cases hr; rfl)
  · have h1 : raw_event cfg emap "INST_RETIRED.ANY" =
        .ok (if filter_string cfg ≠ "" then "instructions" ++ ":" ++ filter_string cfg
             else "instructions") := rfl
    rw [h1] at hr
    exact step "instructions" (by simp [ingroup_events]) (by cases hr; rfl)
  · have h1 : raw_event cfg emap "CPU_CLK_UNHALTED.REF_TSC" =
        .ok (if filter_string cfg ≠ "" then "ref-cycles" ++ ":" ++ filter_string cfg
             else "ref-cycles") := rfl
    rw [h1] at hr
    exact step "ref-cycles" (by simp [ingroup_events]) (by cases hr; rfl)

/-- Resolution cannot increase the non-fixed distinct count: every raw event
outside the free in-group set comes from a non-fixed name, and distinct
names give at most one raw each (`len(set(rs) - add_filter(ingroup)) ≤
len(set(names) - fixed_set)`). -/
theorem needCounters_raw_le {cfg : Cfg} {emap : String → Option String}
    {names rs : List String}
    (h : List.Forall₂ (fun nm r => raw_event cfg emap nm = .ok r) names rs) :
    needCounters cfg rs ≤ fixedMinus names := by
  unfold needCounters fixedMinus
  have hsub : rs.toFinset \ (add_filter cfg ingroup_events).toFinset ⊆
      Finset.image (rawOf cfg emap) (names.toFinset \ fixed_set.toFinset) := by
    intro r hrmem
    simp only [Finset.mem_sdiff, List.mem_toFinset] at hrmem
    obtain ⟨hrin, hrnot⟩ := hrmem
    obtain ⟨nm, hnmin, hnmres⟩ : ∃ nm ∈ names, raw_event cfg emap nm = .ok r := by
      clear hrnot
      induction h with
      | nil => cases hrin
      | cons hab _ ih =>
        rcases List.mem_cons.mp hrin with rfl | hmem
        · exact ⟨_, List.mem_cons_self _ _, hab⟩
        · obtain ⟨nm, h1, h2⟩ := ih hmem
          exact ⟨nm, List.mem_cons_of_mem _ h1, h2⟩
    have hnmfix : nm ∉ fixed_set := by
      intro hcon
      exact hrnot (fixed_raw_ingroup hcon hnmres)
    apply Finset.mem_image.mpr
    refine ⟨nm, ?_, ?_⟩
    · simp only [Finset.mem_sdiff, List.mem_toFinset]
      exact ⟨hnmin, hnmfix⟩
    · simp [rawOf, hnmres]
  calc (rs.toFinset \ (add_filter cfg ingroup_events).toFinset).card
      ≤ (Finset.image (rawOf cfg emap) (names.toFinset \ fixed_set.toFinset)).card :=
        Finset.card_le_card hsub
    _ ≤ (names.toFinset \ fixed_set.toFinset).card := Finset.card_image_le

/-! ### Claim theorems -/

theorem output_s_ne_nil {cfg : Cfg} {area : Option String} {hdr v remark desc : String} :
    Output.s cfg area hdr v remark desc ≠ [] := by
  unfold Output.s
  cases cfg.csv <;> simp

/-- Claim C8: a computed value of `1.2` (outside the `[0,1]` plausibility
range beyond the `0.05` tolerance) is rendered by `Output.p` as the
formatted zero `" 0.00%"` with the remark `"mismeasured"` under default
mode, and as its true value `"120.00%"` (with the caller's remark) when
the show-everything mode (`print_all`) is active. -/
theorem claim_C8 (cfg cfgv : Cfg) (area : Option String) (name remark desc : String)
    (hp : cfg.print_all = false) (hv : cfgv.print_all = true) :
    Output.p cfg area name (Rat.divInt 6 5) none remark desc "" =
      Output.s cfg area name " 0.00%" "mismeasured" "" ∧
    Output.p cfgv area name (Rat.divInt 6 5) none remark desc "" =
      Output.s cfgv area name "120.00%" remark desc := by
  have hcr : check_ratio cfg (Rat.divInt 6 5) = false := by
    simp only [check_ratio, hp]
    decide
  have hcrv : check_ratio cfgv (Rat.divInt 6 5) = true := by
    simp [check_ratio, hv]
  have hz : fmtnum 0 = " 0.00%" := by decide
  have ht : fmtnum (Rat.divInt 6 5) = "120.00%" := by decide
  constructor
  · show (match (if check_ratio cfg (Rat.divInt 6 5) then
        Output.s cfg area name (fmtnum (Rat.divInt 6 5)) remark desc
      else Output.s cfg area name (fmtnum 0) "mismeasured" "") with
      | [] => [("" : String) ++ ""]
      | l1 :: rest => (("" : String) ++ "" ++ l1) :: rest) =
      Output.s cfg area name " 0.00%" "mismeasured" ""
    rw [hcr]
    simp only [if_false, Bool.false_eq_true, hz]
    cases hs : Output.s cfg area name " 0.00%" "mismeasured" "" with
    | nil => exact absurd hs output_s_ne_nil
    | cons l1 rest => rfl
  · show (match (if check_ratio cfgv (Rat.divInt 6 5) then
        Output.s cfgv area name (fmtnum (Rat.divInt 6 5)) remark desc
      else Output.s cfgv area name (fmtnum 0) "mismeasured" "") with
      | [] => [("" : String) ++ ""]
      | l1 :: rest => (("" : String) ++ "" ++ l1) :: rest) =
      Output.s cfgv area name "120.00%" remark desc
    rw [hcrv]
    simp only [if_true, ht]
    cases hs : Output.s cfgv area name "120.00%" remark desc with
    | nil => exact absurd hs output_s_ne_nil
    | cons l1 rest => rfl

/-- Witness for C8's hypotheses: concrete default and show-everything
configurations render `1.2` as claimed. -/
theorem claim_C8_witness :
    Output.p { counters := 4, group_support := true } none "Frontend_Bound"
        (Rat.divInt 6 5) none "above" "" "" =
      ["Frontend_Bound:                           \t 0.00% mismeasured"] ∧
    Output.p { counters := 4, group_support := true, print_all := true } none
        "Frontend_Bound" (Rat.divInt 6 5) none "above" "" "" =
      ["Frontend_Bound:                           \t120.00% above"] := by
  have h := claim_C8 { counters := 4, group_support := true }
    { counters := 4, group_support := true, print_all := true }
    none "Frontend_Bound" "above" "" rfl rfl
  exact ⟨h.1.trans (by decide), h.2.trans (by decide)⟩

/-- The `Stat` recorded for an event (defaultdict semantics). -/
def statGet (acc : List (String × Stat)) (ev : String) : Stat := lookupD acc ev

/-- A `Counter` entry (0 when absent). -/
def errGet (st : Stat) (msg : String) : Nat :=
  match st.errors.find? (fun p => p.1 = msg) with
  | some p => p.2
  | none => 0

theorem find?_map_bump {msg : String} :
    ∀ {l : List (String × Nat)} {p : String × Nat},
      l.find? (fun q => q.1 = msg) = some p →
      (l.map (fun q => if q.1 = msg then (q.1, q.2 + 1) else q)).find?
          (fun q => q.1 = msg) = some (p.1, p.2 + 1) := by
  intro l
  induction l with
  | nil => intro p hf; cases hf
  | cons q t ih =>
    intro p hf
    by_cases hq : q.1 = msg
    · rw [List.find?_cons_of_pos _ (by simpa using hq)] at hf
      cases hf
      simp only [List.map_cons, if_pos hq]
      rw [List.find?_cons_of_pos _ (by simpa using hq)]
    · rw [List.find?_cons_of_neg _ (by simpa using hq)] at hf
      simp only [List.map_cons, if_neg hq]
      rw [List.find?_cons_of_neg _ (by simpa using hq)]
      exact ih hf

theorem cbump_get {l : List (String × Nat)} {msg : String} :
    (match (cbump l msg).find? (fun p => p.1 = msg) with
     | some p => p.2
     | none => 0) =
    (match l.find? (fun p => p.1 = msg) with
     | some p => p.2
     | none => 0) + 1 := by
  cases hf : l.find? (fun p => p.1 = msg) with
  | none =>
    have hc : cbump l msg = l ++ [(msg, 1)] := by unfold cbump; rw [hf]
    have hfind : (l ++ [(msg, 1)]).find? (fun p => p.1 = msg) = some (msg, 1) := by
      rw [List.find?_append, hf]
      simp
    rw [hc, hfind]
  | some p =>
    have hc : cbump l msg = l.map (fun p => if p.1 = msg then (p.1, p.2 + 1) else p) := by
      unfold cbump; rw [hf]
    rw [hc, find?_map_bump hf]

theorem bumpErr_get {acc : List (String × Stat)} {ev msg : String} :
    statGet (bumpErr acc ev msg) ev =
      ⟨(statGet acc ev).total, cbump (statGet acc ev).errors msg⟩ := by
  induction acc with
  | nil =>
    show statGet [(ev, ⟨0, [(msg, 1)]⟩)] ev = _
    unfold statGet lookupD
    rw [List.find?_cons_of_pos _ (by simp), List.find?_nil]
    have : cbump (⟨0, []⟩ : Stat).errors msg = [(msg, 1)] := by
      unfold cbump
      simp
    simp only [Option.getD_some]
    exact congrArg (fun e => Stat.mk 0 e) this.symm
  | cons p rest ih =>
    obtain ⟨e, st⟩ := p
    by_cases he : e = ev
    · subst he
      have hb : bumpErr ((e, st) :: rest) e msg =
          (e, ⟨st.total, cbump st.errors msg⟩) :: rest := by
        simp [bumpErr]
      rw [hb]
      unfold statGet lookupD
      rw [List.find?_cons_of_pos _ (by simp), List.find?_cons_of_pos _ (by simp)]
    · have hb : bumpErr ((e, st) :: rest) ev msg = (e, st) :: bumpErr rest ev msg := by
        simp only [bumpErr]; rw [if_neg he]
      rw [hb]
      unfold statGet lookupD at ih ⊢
      rw [List.find?_cons_of_neg _ (by simpa using he),
          List.find?_cons_of_neg _ (by simpa using he)]
      exact ih

theorem bumpTotal_get {acc : List (String × Stat)} {ev : String} :
    statGet (bumpTotal acc ev) ev =
      ⟨(statGet acc ev).total + 1, (statGet acc ev).errors⟩ := by
  induction acc with
  | nil =>
    show statGet [(ev, ⟨1, []⟩)] ev = _
    unfold statGet lookupD
    rw [List.find?_cons_of_pos _ (by simp), List.find?_nil]
    rfl
  | cons p rest ih =>
    obtain ⟨e, st⟩ := p
    by_cases he : e = ev
    · subst he
      have hb : bumpTotal ((e, st) :: rest) e =
          (e, ⟨st.total + 1, st.errors⟩) :: rest := by
        simp [bumpTotal]
      rw [hb]
      unfold statGet lookupD
      rw [List.find?_cons_of_pos _ (by simp), List.find?_cons_of_pos _ (by simp)]
    · have hb : bumpTotal ((e, st) :: rest) ev = (e, st) :: bumpTotal rest ev := by
        simp only [bumpTotal]; rw [if_neg he]
      rw [hb]
      unfold statGet lookupD at ih ⊢
      rw [List.find?_cons_of_neg _ (by simpa using he),
          List.find?_cons_of_neg _ (by simpa using he)]
      exact ih

theorem appendAt_get [DecidableEq κ] [Inhabited (List α)] {m : List (κ × List α)}
    {k : κ} {v : α} (hd : (default : List α) = []) :
    lookupD (appendAt m k v) k = lookupD m k ++ [v] := by
  induction m with
  | nil =>
    show lookupD [(k, [v])] k = _
    unfold lookupD
    rw [List.find?_cons_of_pos _ (by simp), List.find?_nil]
    simp [hd]
  | cons p rest ih =>
    obtain ⟨k', l⟩ := p
    by_cases hk : k' = k
    · subst hk
      have hb : appendAt ((k', l) :: rest) k' v = (k', l ++ [v]) :: rest := by
        simp [appendAt]
      rw [hb]
      unfold lookupD
      rw [List.find?_cons_of_pos _ (by simp), List.find?_cons_of_pos _ (by simp)]
    · have hb : appendAt ((k', l) :: rest) k v = (k', l) :: appendAt rest k v := by
        simp only [appendAt]; rw [if_neg hk]
      rw [hb]
      unfold lookupD at ih ⊢
      rw [List.find?_cons_of_neg _ (by simpa using hk),
          List.find?_cons_of_neg _ (by simpa using hk)]
      exact ih

/-- Claim C5: a parsed line whose count field is the bracket-wrapped marker
`"<not counted>"` records the value `0.0` in the result bucket, increments
the event's error tally for the marker text `"not counted"` by exactly 1,
and increments the event's total observation count by exactly 1. -/
theorem claim_C5 (st : PState) (l title event0 : String)
    (hshape : shape (splitCh ',' l) = some (title, "<not counted>", event0)) :
    stepCore st l =
      .ok (accumObs
             { st with account := bumpErr st.account (rstrip event0) "not counted" }
             title (rstrip event0) 0, []) ∧
    (statGet (accumObs
        { st with account := bumpErr st.account (rstrip event0) "not counted" }
        title (rstrip event0) 0).account (rstrip event0)).total
      = (statGet st.account (rstrip event0)).total + 1 ∧
    errGet (statGet (accumObs
        { st with account := bumpErr st.account (rstrip event0) "not counted" }
        title (rstrip event0) 0).account (rstrip event0)) "not counted"
      = errGet (statGet st.account (rstrip event0)) "not counted" + 1 ∧
    lookupD (accumObs
        { st with account := bumpErr st.account (rstrip event0) "not counted" }
        title (rstrip event0) 0).res title
      = lookupD st.res title ++ [(0 : ℚ)] := by
  have hdig : (match "<not counted>".data with
      | c :: _ => c.isDigit
      | [] => false) = false := by decide
  have hlt : strStarts "<not counted>" "<" = true := by decide
  have hstrip : stripAngles "<not counted>" = "not counted" := by decide
  refine ⟨?_, ?_, ?_, ?_⟩
  · simp only [stepCore]
    rw [hshape]
    simp only [hdig, hlt, hstrip, Bool.false_eq_true, if_false, if_true]
    rw [if_neg (by decide)]
  · show (statGet (bumpTotal (bumpErr st.account (rstrip event0) "not counted")
        (rstrip event0)) (rstrip event0)).total = _
    rw [bumpTotal_get]
    show (statGet (bumpErr st.account (rstrip event0) "not counted")
        (rstrip event0)).total + 1 = _
    rw [bumpErr_get]
  · show errGet (statGet (bumpTotal (bumpErr st.account (rstrip event0) "not counted")
        (rstrip event0)) (rstrip event0)) "not counted" = _
    rw [bumpTotal_get]
    show errGet ⟨(statGet (bumpErr st.account (rstrip event0) "not counted")
          (rstrip event0)).total + 1,
        (statGet (bumpErr st.account (rstrip event0) "not counted")
          (rstrip event0)).errors⟩ "not counted" = _
    rw [bumpErr_get]
    show (match (cbump (statGet st.account (rstrip event0)).errors
        "not counted").find? (fun p => p.1 = "not counted") with
      | some p => p.2
      | none => 0) = _
    rw [cbump_get]
    rfl
  · show lookupD (appendAt st.res title (0 : ℚ)) title = _
    exact appendAt_get rfl

/-- Witness for C5: the line `"<not counted>,cycles"` from the empty parse
state yields value `0`, error tally 1 for `"not counted"` and total 1 for
event `"cycles"`. -/
theorem claim_C5_witness :
    shape (splitCh ',' "<not counted>,cycles")
        = some ("", "<not counted>", "cycles") ∧
    stepCore pstate0 "<not counted>,cycles" =
      .ok (accumObs
             { pstate0 with
               account := bumpErr pstate0.account (rstrip "cycles") "not counted" }
             "" (rstrip "cycles") 0, []) ∧
    (statGet (accumObs
        { pstate0 with
          account := bumpErr pstate0.account (rstrip "cycles") "not counted" }
        "" (rstrip "cycles") 0).account (rstrip "cycles")).total
      = (statGet pstate0.account (rstrip "cycles")).total + 1 := by
  have h := claim_C5 pstate0 "<not counted>,cycles" "" "cycles" (by decide)
  exact ⟨by decide, h.1, h.2.1⟩

/-- Claim C7: an input line whose comma-split fields match none of the three
recognized shapes is written raw to the diagnostic stream (stdout), which
is distinct from the primary formatted result stream (`Output.logf`,
stderr or the `-o` logfile), and the parse loop continues with the next
line — one unparseable line never aborts the run. -/
theorem claim_C7 (cfg : Cfg) (st : PState) (l : String)
    (hshape : shape (splitCh ',' l) = none) :
    stepCore st l =
      .ok (st, [.line .stdout "unparseable perf output", .raw .stdout l]) ∧
    outChan cfg ≠ .stdout ∧
    (intervalStep cfg st l = .ok (st, [], l) →
      ∀ ls, processLines cfg st (l :: ls) =
        match processLines cfg st ls with
        | Except.error e => Except.error e
        | Except.ok p => Except.ok (p.1,
            [Ev.line .stdout "unparseable perf output", Ev.raw .stdout l] ++ p.2)) := by
  have hcore : stepCore st l =
      .ok (st, [.line .stdout "unparseable perf output", .raw .stdout l]) := by
    simp only [stepCore]
    rw [hshape]
  refine ⟨hcore, ?_, ?_⟩
  · unfold outChan
    split <;> simp
  · intro hint ls
    simp only [processLines]
    have hstep : stepLine cfg st l =
        .ok (st, [.line .stdout "unparseable perf output", .raw .stdout l]) := by
      simp only [stepLine, hint, hcore]
      rfl
    rw [hstep]
    cases hp : processLines cfg st ls with
    | error e => simp [hp]
    | ok p => simp [hp]

/-- Witness for C7: the line `"hello,world"` matches no shape; from the
empty state it is surfaced on stdout and the run continues. -/
theorem claim_C7_witness :
    shape (splitCh ',' "hello,world") = none ∧
    stepCore pstate0 "hello,world" =
      .ok (pstate0,
        [.line .stdout "unparseable perf output", .raw .stdout "hello,world"]) ∧
    outChan { counters := 4, group_support := true } ≠ .stdout ∧
    processLines { counters := 4, group_support := true } pstate0 ["hello,world"] =
      .ok (pstate0,
        [.line .stdout "unparseable perf output", .raw .stdout "hello,world"]) := by
  have h := claim_C7 { counters := 4, group_support := true } pstate0 "hello,world"
    (by decide)
  refine ⟨by decide, h.1, h.2.1, ?_⟩
  rw [h.2.2 (by decide) []]
  decide

/-- Claim C4: in interval mode, a line carrying a timestamp different from
`prev_interval` first flushes every accumulated bucket, keyed by the
previous timestamp (one `Runner.print_res` hand-off per aggregation key,
in sorted key order), and only then parses the remainder of the line into
the emptied accumulation state: the emitted flush events precede whatever
the fresh accumulation produces, and the fresh accumulation starts from
empty `res`/`rev` with the new timestamp. -/
theorem claim_C4 (cfg : Cfg) (st : PState) (l numStr rest : String) (t : ℚ)
    (him : cfg.interval_mode = true)
    (hts : tsSpan l = some (numStr, rest))
    (hpf : parseFloatQ numStr = some t)
    (hne : t ≠ st.prev_interval)
    (hres : st.res ≠ []) :
    stepLine cfg st l =
      match stepCore (⟨[], [], st.account, t, some t⟩ : PState) rest with
      | Except.error e => Except.error e
      | Except.ok p =>
          Except.ok (p.1, flushEvs st.res st.rev (some st.prev_interval) ++ p.2) := by
  have hint : intervalStep cfg st l =
      .ok ((⟨[], [], st.account, t, some t⟩ : PState),
           flushEvs st.res st.rev (some st.prev_interval), rest) := by
    simp only [intervalStep, him, if_true, hts, hpf]
    rw [if_pos hne, if_pos hres]
  simp only [stepLine, hint]
  cases hp : stepCore (⟨[], [], st.account, t, some t⟩ : PState) rest with
  | error e => simp [hp]
  | ok p => simp [hp]

/-- Witness for C4: after `"0.5,100,cycles"`, the line `"1.0,200,cycles"`
flushes the completed bucket for timestamp `0.5` (value `100.0` for event
`cycles`) before any data for `1.0` is accumulated. -/
theorem claim_C4_witness :
    processLines { counters := 4, group_support := true, interval_mode := true }
        pstate0 ["0.5,100,cycles"] =
      .ok (⟨[("", [Rat.divInt 100 1])], [("", ["cycles"])],
            [("cycles", ⟨1, []⟩)], Rat.divInt 1 2, some (Rat.divInt 1 2)⟩, []) ∧
    stepLine { counters := 4, group_support := true, interval_mode := true }
        (⟨[("", [Rat.divInt 100 1])], [("", ["cycles"])],
          [("cycles", ⟨1, []⟩)], Rat.divInt 1 2, some (Rat.divInt 1 2)⟩ : PState)
        "1.0,200,cycles" =
      .ok (⟨[("", [Rat.divInt 200 1])], [("", ["cycles"])],
            [("cycles", ⟨2, []⟩)], Rat.divInt 1 1, some (Rat.divInt 1 1)⟩,
        [.flush (some (Rat.divInt 1 2)) "" [Rat.divInt 100 1] ["cycles"]]) := by
  constructor
  · decide
  · have h := claim_C4 { counters := 4, group_support := true, interval_mode := true }
      (⟨[("", [Rat.divInt 100 1])], [("", ["cycles"])],
        [("cycles", ⟨1, []⟩)], Rat.divInt 1 2, some (Rat.divInt 1 2)⟩ : PState)
      "1.0,200,cycles" "1.0" "200,cycles" (Rat.divInt 1 1)
      rfl (by decide) (by decide) (by decide) (by decide)
    rw [h]
    decide

theorem printResAux_append {cfg : Cfg} {getperf : String → String} {res : List ℚ}
    {rev : List String} {ts : Option ℚ} {title : String} :
    ∀ (l1 l2 : List PObj),
      printResAux cfg getperf res rev ts title (l1 ++ l2) =
        match printResAux cfg getperf res rev ts title l1 with
        | Except.error e => Except.error e
        | Except.ok p =>
          match printResAux cfg getperf res rev ts title l2 with
          | Except.error e => Except.error e
          | Except.ok q => Except.ok (p.1 ++ q.1, p.2 ++ q.2) := by
  intro l1
  induction l1 with
  | nil =>
    intro l2
    simp only [List.nil_append, printResAux]
    cases hp : printResAux cfg getperf res rev ts title l2 with
    | error e => rfl
    | ok q => simp
  | cons po rest ih =>
    intro l2
    simp only [List.cons_append, printResAux]
    cases hpo : pnode cfg getperf res rev ts title po with
    | error e => rfl
    | ok p =>
      obtain ⟨po', e1⟩ := p
      rw [List.append_eq, ih l2]
      cases hr : printResAux cfg getperf res rev ts title rest with
      | error e => rfl
      | ok q =>
        cases hl : printResAux cfg getperf res rev ts title l2 with
        | error e => rfl
        | ok w => simp

/-- Claim C9: a node whose evaluated threshold flag is false while
show-everything (`print_all`) is off contributes no output record, and its
threshold is forcibly cleared in the returned node list, before any later
node is processed; the node's whole contribution is a function of the node
itself (the neighbours are processed by the same fold unchanged), so the
suppression cannot depend on the evaluation order of sibling nodes. -/
theorem claim_C9 (cfg : Cfg) (getperf : String → String) (res : List ℚ)
    (rev : List String) (ts : Option ℚ) (title : String)
    (pre post : List PObj) (po : PObj) (v : ℚ)
    (hres : res.length ≠ 0) (hpa : cfg.print_all = false)
    (hrm : po.res_map ≠ [])
    (hcomp : po.compute (nodeResolver getperf res rev po.res_map) = .ok (v, false)) :
    Runner.print_res cfg getperf (pre ++ po :: post) res rev ts title =
      match printResAux cfg getperf res rev ts title pre with
      | Except.error e => Except.error e
      | Except.ok p =>
        match printResAux cfg getperf res rev ts title post with
        | Except.error e => Except.error e
        | Except.ok q =>
          Except.ok (p.1 ++ ({ po with val := v, thresh := false } : PObj) :: q.1,
            p.2 ++ q.2) := by
  have hpnode : pnode cfg getperf res rev ts title po =
      .ok ({ po with val := v, thresh := false }, []) := by
    simp only [pnode, if_pos hrm, hcomp]
    rw [if_neg]
    simp only [Bool.false_eq_true, false_or, hpa, Bool.false_eq_true]
    exact fun h => by cases h
  unfold Runner.print_res
  rw [if_neg hres, printResAux_append]
  cases hp : printResAux cfg getperf res rev ts title pre with
  | error e => rfl
  | ok p =>
    simp only [printResAux, hpnode]
    cases hq : printResAux cfg getperf res rev ts title post with
    | error e => rfl
    | ok q => simp

/-- Witness for C9: a single below-threshold node in default mode is
suppressed (no record) and handed back with its threshold cleared. -/
theorem claim_C9_witness :
    Runner.print_res { counters := 4, group_support := true } (fun s => s)
        [⟨"NodeA", none, "", [(("evx1", 1), 0)],
          fun _ => .ok (Rat.divInt 1 2, false), true, 0⟩]
        [Rat.divInt 5 1] ["evx1"] none "" =
      .ok ([⟨"NodeA", none, "", [(("evx1", 1), 0)],
             fun _ => .ok (Rat.divInt 1 2, false), false, Rat.divInt 1 2⟩], []) := by
  have h := claim_C9 { counters := 4, group_support := true } (fun s => s)
    [Rat.divInt 5 1] ["evx1"] none "" [] []
    ⟨"NodeA", none, "", [(("evx1", 1), 0)],
      fun _ => .ok (Rat.divInt 1 2, false), true, 0⟩ (Rat.divInt 1 2)
    (by decide) rfl (by decide) rfl
  exact h.trans rfl

/-- Claim C6 (amended): an event mnemonic the resolver cannot recognize is
fatal, with the report `"<name> not found"` (modelled as the carried error
message), unless `--force` is set; under `--force` it is substituted with
the bookkeeping placeholder `"cycles"` so scheduling proceeds.  However,
the substituted requirement's downstream read does NOT surface as an
unmeasured/mismeasured value: any `lookup_res` whose recorded raw event
canonicalizes differently from the requested mnemonic — as the placeholder
does — never returns a value (the defensive `assert` aborts the run). -/
theorem claim_C6 (cfg : Cfg) (emap : String → Option String) (i : String)
    (hdot : i.data.contains '.' = true)
    (hfix : fixed_counters.lookup i = none)
    (hemap : emap i = none) :
    (cfg.force = false →
      raw_event cfg emap i = .error (.exitFail (i ++ " not found"))) ∧
    (cfg.force = true → raw_event cfg emap i = .ok "cycles") ∧
    (∀ (getperf : String → String) (res : List ℚ) (rev : List String) (idx : Nat),
      canon_event (getperf (rev.getD idx "")) ≠ canon_event i →
      ∀ q : ℚ, lookup_res getperf res rev i idx ≠ .ok q) := by
  refine ⟨?_, ?_, ?_⟩
  · intro hforce
    simp only [raw_event, hdot, if_true, hfix, hemap, hforce]
    rw [if_neg (by decide)]
  · intro hforce
    simp only [raw_event, hdot, if_true, hfix, hemap, hforce]
  · intro getperf res rev idx hcanon q
    unfold lookup_res
    split
    · rename_i h
      have hget : rev.get ⟨idx, h.1⟩ = rev.getD idx "" := by
        rw [List.getD_eq_getElem?_getD, List.getElem?_eq_getElem h.1]
        rfl
      rw [if_neg (by rw [hget]; exact hcanon)]
      intro hc
      cases hc
    · intro hc
      cases hc

/-- Counterexample to C6 as stated: under `--force`, the unknown mnemonic
`"BOGUS.EVENT"` is substituted with `"cycles"` and the scheduler completes,
giving the node a non-empty IndexMap (so its evaluation is NOT skipped as
"not measured"); but when the node is then evaluated, the canonical-name
assertion in `lookup_res` fires and `Runner.print_res` aborts with
`AssertionError` — the value never reads as unmeasured or mismeasured,
contradicting the claim's final clause. -/
theorem claim_C6_counterexample :
    raw_event { counters := 1, group_support := false, force := true }
        (fun _ => none) "BOGUS.EVENT" = .ok "cycles" ∧
    runSchedule { counters := 1, group_support := false, force := true }
        (fun _ => none) 20 [⟨"X", 1, [("BOGUS.EVENT", 1)]⟩] =
      .ok ⟨["cycles"], "cycles", [["cycles"]], 0,
        [(⟨"X", 1, [("BOGUS.EVENT", 1)], ["cycles"], 0⟩,
          [(("BOGUS.EVENT", 1), 0)])]⟩ ∧
    Runner.print_res { counters := 1, group_support := false, force := true }
        (fun s => s)
        [⟨"X", none, "", [(("BOGUS.EVENT", 1), 0)],
          fun f => match f ("BOGUS.EVENT", 1) with
            | .ok v => .ok (v, true)
            | .error e => .error e,
          false, 0⟩]
        [Rat.divInt 37 1] ["cycles"] none "" = .error "AssertionError" := by
  refine ⟨by decide, by decide, ?_⟩
  rfl

/-- Witness for C6's hypotheses: the concrete unknown mnemonic
`"BOGUS.EVENT"` with an empty resolver, without and with `--force`, and
the placeholder's failing downstream lookup. -/
theorem claim_C6_witness :
    raw_event { counters := 1, group_support := false } (fun _ => none)
        "BOGUS.EVENT" = .error (.exitFail ("BOGUS.EVENT" ++ " not found")) ∧
    raw_event { counters := 1, group_support := false, force := true }
        (fun _ => none) "BOGUS.EVENT" = .ok "cycles" ∧
    lookup_res (fun s => s) [Rat.divInt 37 1] ["cycles"] "BOGUS.EVENT" 0
      ≠ .ok (Rat.divInt 37 1) := by
  have h1 := claim_C6 { counters := 1, group_support := false } (fun _ => none)
    "BOGUS.EVENT" (by decide) (by decide) rfl
  have h2 := claim_C6 { counters := 1, group_support := false, force := true }
    (fun _ => none) "BOGUS.EVENT" (by decide) (by decide) rfl
  exact ⟨h1.1 rfl, h2.2.1 rfl,
    h2.2.2 (fun s => s) [Rat.divInt 37 1] ["cycles"] 0 (by decide) (Rat.divInt 37 1)⟩

theorem rmGet?_rmSet_self {rm : ResMap} {key : String × Nat} {v : Nat} :
    rmGet? (rmSet rm key v) key = some v := by
  unfold rmGet? rmSet
  rw [List.find?_cons_of_pos _ (by simp)]

theorem rmGet?_rmSet_ne {rm : ResMap} {key key' : String × Nat} {v : Nat}
    (h : key' ≠ key) : rmGet? (rmSet rm key v) key' = rmGet? rm key' := by
  unfold rmGet? rmSet
  rw [List.find?_cons_of_neg _ (by simpa using fun hc => absurd hc.symm (by simpa using h))]
  congr 1
  induction rm with
  | nil => rfl
  | cons q t ih =>
    by_cases hq : q.1 = key'
    · have hqk : ¬ q.1 = key := fun hc => h (hq ▸ hc ▸ rfl)
      rw [List.filter_cons_of_pos (by simpa using hqk),
          List.find?_cons_of_pos _ (by simpa using hq),
          List.find?_cons_of_pos _ (by simpa using hq)]
    · by_cases hqk : q.1 = key
      · rw [List.filter_cons_of_neg (by simpa using hqk),
            List.find?_cons_of_neg _ (by simpa using hq)]
        exact ih
      · rw [List.filter_cons_of_pos (by simpa using hqk),
            List.find?_cons_of_neg _ (by simpa using hq),
            List.find?_cons_of_neg _ (by simpa using hq)]
        exact ih

theorem urmObj_get {cfg : Cfg} {emap : String → Option String}
    {evnum : List String} {base : Nat} {e : String} {lvl : Nat} {r : String}
    (hr : raw_event cfg emap e = .ok r) (hrin : evnum.contains r = true) :
    ∀ (levs : List (String × Nat)) (rm rm' : ResMap),
      urmObj cfg emap evnum base levs rm = .ok rm' →
      ((e, lvl) ∈ levs ∨ rmGet? rm (e, lvl) = some (base + evnum.indexOf r)) →
      rmGet? rm' (e, lvl) = some (base + evnum.indexOf r) := by
  intro levs
  induction levs with
  | nil =>
    intro rm rm' hu hd
    simp only [urmObj] at hu
    cases hu
    rcases hd with h | h
    · cases h
    · exact h
  | cons lev rest ih =>
    intro rm rm' hu hd
    simp only [urmObj] at hu
    cases hre : raw_event cfg emap lev.1 with
    | error err => rw [hre] at hu; cases hu
    | ok r' =>
      rw [hre] at hu
      refine ih _ _ hu ?_
      by_cases hlev : lev = (e, lvl)
      · subst hlev
        have : r' = r := by
          rw [hr] at hre
          cases hre
          rfl
        subst this
        rw [hrin, if_pos rfl]
        exact Or.inr rmGet?_rmSet_self
      · rcases hd with h | h
        · rcases List.mem_cons.mp h with h1 | h1
          · exact absurd h1.symm hlev
          · exact Or.inl h1
        · refine Or.inr ?_
          by_cases hc : evnum.contains r' = true
          · rw [hc, if_pos rfl]
            rw [rmGet?_rmSet_ne (fun hx => hlev hx.symm)]
            exact h
          · rw [if_neg (by simpa using hc)]
            exact h

theorem urm_find_aux {cfg : Cfg} {emap : String → Option String}
    {ev2 : List String} {objl : List String} {base : Nat} :
    ∀ {l1 l2 : List (CObj × ResMap)},
      List.Forall₂ (fun a b =>
        (if objl.contains a.1.name then
          match urmObj cfg emap ev2 base a.1.evlevels a.2 with
          | .error e => .error e
          | .ok rm' => .ok (a.1, rm')
        else .ok a) = Except.ok b) l1 l2 →
      ∀ {nm : String} {co : CObj} {rm : ResMap},
        l1.find? (fun p => p.1.name = nm) = some (co, rm) →
        objl.contains co.name = true →
        ∃ rm', urmObj cfg emap ev2 base co.evlevels rm = .ok rm' ∧
          l2.find? (fun p => p.1.name = nm) = some (co, rm') := by
  intro l1 l2 hfa
  induction hfa with
  | nil => intro nm co rm hf _; cases hf
  | @cons a b t1 t2 hab _ ih =>
    intro nm co rm hf hin
    by_cases hp : a.1.name = nm
    · rw [List.find?_cons_of_pos _ (by simpa using hp)] at hf
      cases hf
      rw [hin] at hab
      simp only [if_true] at hab
      cases hu : urmObj cfg emap ev2 base co.evlevels rm with
      | error e => rw [hu] at hab; cases hab
      | ok rm' =>
        rw [hu] at hab
        cases hab
        refine ⟨rm', rfl, ?_⟩
        rw [List.find?_cons_of_pos _ (by simpa using hp)]
    · rw [List.find?_cons_of_neg _ (by simpa using hp)] at hf
      obtain ⟨rm', h1, h2⟩ := ih hf hin
      refine ⟨rm', h1, ?_⟩
      have hb1 : b.1 = a.1 := by
        by_cases hc : objl.contains a.1.name = true
        · rw [hc] at hab
          simp only [if_true] at hab
          cases hu : urmObj cfg emap ev2 base a.1.evlevels a.2 with
          | error e => rw [hu] at hab; cases hab
          | ok x => rw [hu] at hab; cases hab; rfl
        · rw [if_neg (by simpa using hc)] at hab
          cases hab
          rfl
      rw [List.find?_cons_of_neg _ (by simp [hb1, hp])]
      exact h2

theorem urm_find {cfg : Cfg} {emap : String → Option String}
    {ev2 : List String} {objl : List String} {base : Nat} {st st' : RunnerS}
    {nm : String} {co : CObj} {rm : ResMap}
    (h : update_res_map cfg emap ev2 objl base st = .ok st')
    (hf : st.objs.find? (fun p => p.1.name = nm) = some (co, rm))
    (hin : objl.contains co.name = true) :
    ∃ rm', urmObj cfg emap ev2 base co.evlevels rm = .ok rm' ∧
      st'.objs.find? (fun p => p.1.name = nm) = some (co, rm') := by
  unfold update_res_map at h
  cases hm : mapME (fun co : CObj × ResMap =>
      if objl.contains co.1.name then
        match urmObj cfg emap ev2 base co.1.evlevels co.2 with
        | .error e => .error e
        | .ok rm' => .ok (co.1, rm')
      else .ok co) st.objs with
  | error e => rw [hm] at h; cases h
  | ok objs' =>
    rw [hm] at h
    cases h
    exact urm_find_aux (mapME_forall2 hm) hf hin

/-- The IndexMap the scheduler state holds for the node named `nm`. -/
def objResMap (st : RunnerS) (nm : String) : ResMap :=
  match st.objs.find? (fun p => p.1.name = nm) with
  | some p => p.2
  | none => []

/-- Claim C3 (amended): deduplication holds per flush batch.  When one call
to `Runner.add` flushes a batch (no split), any two of its objects that
declare the identical `(event, level)` requirement get IndexMap entries
pointing at the same flat-list position `base + index(r)`, and the
resolved raw event occupies exactly one slot of the group appended to the
flat list.  (Globally, across different batches, the same raw event may
occupy several slots — see the counterexample.) -/
theorem claim_C3_amended (cfg : Cfg) (emap : String → Option String)
    (fuel : Nat) (st : RunnerS) (objl evnum : List String)
    (evlev : List (String × Nat)) (st' : RunnerS) (o1 o2 : CObj)
    (rm1 rm2 : ResMap) (e : String) (lvl : Nat) (r : String)
    (hadd : Runner.add cfg emap fuel st objl evnum evlev = .ok st')
    (hfit : ¬ cfg.counters < needCounters cfg evnum)
    (hf1 : st.objs.find? (fun p => p.1.name = o1.name) = some (o1, rm1))
    (hf2 : st.objs.find? (fun p => p.1.name = o2.name) = some (o2, rm2))
    (hn1 : objl.contains o1.name = true) (hn2 : objl.contains o2.name = true)
    (hm1 : (e, lvl) ∈ o1.evlevels) (hm2 : (e, lvl) ∈ o2.evlevels)
    (hr : raw_event cfg emap e = .ok r) (hrin : r ∈ evnum) :
    rmGet? (objResMap st' o1.name) (e, lvl)
        = some (st.evnum.length + (dedupF evnum).indexOf r) ∧
    rmGet? (objResMap st' o2.name) (e, lvl)
        = some (st.evnum.length + (dedupF evnum).indexOf r) ∧
    (dedupF evnum).count r = 1 ∧
    st'.evnum = st.evnum ++ dedupF evnum := by
  cases fuel with
  | zero => cases hadd
  | succ f =>
    by_cases hne : evlev = []
    · rw [Runner.add, if_pos hne] at hadd
      cases hadd
    · rw [Runner.add, if_neg hne, if_neg hfit] at hadd
      cases hu : update_res_map cfg emap (dedup2 evnum evlev).1 objl
          st.evnum.length st with
      | error err => rw [hu] at hadd; cases hadd
      | ok stu =>
        rw [hu] at hadd
        cases hadd
        have hd1 : (dedup2 evnum evlev).1 = dedupF evnum := rfl
        rw [hd1] at hu
        have hrin' : (dedupF evnum).contains r = true := by
          have := dedupF_mem.mpr hrin
          simpa using this
        have hevnum : stu.evnum = st.evnum := by
          unfold update_res_map at hu
          cases hm : mapME (fun co : CObj × ResMap =>
              if objl.contains co.1.name then
                match urmObj cfg emap (dedupF evnum) st.evnum.length co.1.evlevels co.2 with
                | .error e => .error e
                | .ok rm' => .ok (co.1, rm')
              else .ok co) st.objs with
          | error e2 => rw [hm] at hu; cases hu
          | ok objs' => rw [hm] at hu; cases hu; rfl
        obtain ⟨rm1', hu1, hf1'⟩ := urm_find hu hf1 hn1
        obtain ⟨rm2', hu2, hf2'⟩ := urm_find hu hf2 hn2
        refine ⟨?_, ?_, ?_, ?_⟩
        · show rmGet? (objResMap stu o1.name) (e, lvl) = _
          unfold objResMap
          rw [hf1']
          exact urmObj_get hr hrin' _ _ _ hu1 (Or.inl hm1)
        · show rmGet? (objResMap stu o2.name) (e, lvl) = _
          unfold objResMap
          rw [hf2']
          exact urmObj_get hr hrin' _ _ _ hu2 (Or.inl hm2)
        · have hmem : r ∈ dedupF evnum := dedupF_mem.mpr hrin
          have hle : (dedupF evnum).count r ≤ 1 :=
            List.nodup_iff_count_le_one.mp dedupF_nodup r
          have hpos : 0 < (dedupF evnum).count r := List.count_pos_iff.mpr hmem
          omega
        · show stu.evnum ++ (dedup2 evnum evlev).1 = st.evnum ++ dedupF evnum
          rw [hd1, hevnum]

set_option maxHeartbeats 2000000 in
/-- Counterexample to C3 as stated: with a counter budget of 1, nodes `A`
and `B` both declare the identical requirement `("evx1", 1)`, yet after
scheduling completes `A`'s IndexMap entry is position 0 while `B`'s is
position 1 (their shared event was flushed in two different batches), and
the resolved raw event `"evx1"` occupies two slots of the global flat
event list, not one. -/
theorem claim_C3_counterexample :
    runSchedule { counters := 1, group_support := false } (fun _ => none) 20
        [⟨"A", 1, [("evx1", 1)]⟩, ⟨"B", 1, [("evx1", 1), ("evx2", 1)]⟩] =
      .ok ⟨["evx1", "evx1", "evx2"], "evx1,evx1,evx2",
        [["evx1"], ["evx1"], ["evx2"]], 1,
        [(⟨"A", 1, [("evx1", 1)], ["evx1"], 1⟩, [(("evx1", 1), 0)]),
         (⟨"B", 1, [("evx1", 1), ("evx2", 1)], ["evx1", "evx2"], 2⟩,
          [(("evx2", 1), 2), (("evx1", 1), 1)])]⟩ ∧
    rmGet? [(("evx1", 1), 0)] ("evx1", 1) = some 0 ∧
    rmGet? [(("evx2", 1), 2), (("evx1", 1), 1)] ("evx1", 1) = some 1 ∧
    (0 : Nat) ≠ 1 ∧
    (["evx1", "evx1", "evx2"].count "evx1") = 2 := by
  refine ⟨by decide, by decide, by decide, by decide, by decide⟩

/-- Witness for the amended C3: one flushed batch holding both `A` and `B`
(budget 4) maps their shared requirement to the same position 0, and the
event fills exactly one slot of the flushed group. -/
theorem claim_C3_witness :
    rmGet? (objResMap
        (⟨["evx1", "evx2"], "evx1,evx2", [["evx1", "evx2"]], 0,
          [(⟨"A", 1, [("evx1", 1)], ["evx1"], 1⟩, [(("evx1", 1), 0)]),
           (⟨"B", 1, [("evx1", 1), ("evx2", 1)], ["evx1", "evx2"], 2⟩,
            [(("evx2", 1), 1), (("evx1", 1), 0)])]⟩ : RunnerS) "A") ("evx1", 1)
      = some ((0 : Nat) + (dedupF ["evx1", "evx1", "evx2"]).indexOf "evx1") ∧
    rmGet? (objResMap
        (⟨["evx1", "evx2"], "evx1,evx2", [["evx1", "evx2"]], 0,
          [(⟨"A", 1, [("evx1", 1)], ["evx1"], 1⟩, [(("evx1", 1), 0)]),
           (⟨"B", 1, [("evx1", 1), ("evx2", 1)], ["evx1", "evx2"], 2⟩,
            [(("evx2", 1), 1), (("evx1", 1), 0)])]⟩ : RunnerS) "B") ("evx1", 1)
      = some ((0 : Nat) + (dedupF ["evx1", "evx1", "evx2"]).indexOf "evx1") ∧
    (dedupF ["evx1", "evx1", "evx2"]).count "evx1" = 1 := by
  have h := claim_C3_amended { counters := 4, group_support := false }
    (fun _ => none) 3
    (⟨[], "", [], 0,
      [(⟨"A", 1, [("evx1", 1)], ["evx1"], 1⟩, []),
       (⟨"B", 1, [("evx1", 1), ("evx2", 1)], ["evx1", "evx2"], 2⟩, [])]⟩ : RunnerS)
    ["A", "B"] ["evx1", "evx1", "evx2"]
    [("evx1", 1), ("evx1", 1), ("evx2", 1)]
    (⟨["evx1", "evx2"], "evx1,evx2", [["evx1", "evx2"]], 0,
      [(⟨"A", 1, [("evx1", 1)], ["evx1"], 1⟩, [(("evx1", 1), 0)]),
       (⟨"B", 1, [("evx1", 1), ("evx2", 1)], ["evx1", "evx2"], 2⟩,
        [(("evx2", 1), 1), (("evx1", 1), 0)])]⟩ : RunnerS)
    ⟨"A", 1, [("evx1", 1)], ["evx1"], 1⟩
    ⟨"B", 1, [("evx1", 1), ("evx2", 1)], ["evx1", "evx2"], 2⟩
    [] [] "evx1" 1 "evx1"
    (by decide) (by decide) (by decide) (by decide) (by decide) (by decide)
    (by decide) (by decide) rfl (by decide)
  exact ⟨h.1, h.2.1, h.2.2.1⟩

theorem sortedInsert_mem {a x : CObj} :
    ∀ {l : List CObj}, x ∈ sortedInsert a l ↔ x = a ∨ x ∈ l := by
  intro l
  induction l with
  | nil => simp [sortedInsert]
  | cons b t ih =>
    unfold sortedInsert
    split
    · simp
    · simp only [List.mem_cons, ih]
      tauto

theorem sortObjs_mem {x : CObj} : ∀ {l : List CObj}, x ∈ sortObjs l ↔ x ∈ l := by
  intro l
  induction l with
  | nil => simp [sortObjs]
  | cons a t ih =>
    simp only [sortObjs, sortedInsert_mem, ih, List.mem_cons]

/-- When everything still fits into the running group, `Runner.schedule`'s
loop only commits: no flush happens, and the accumulators collect all
names, events and requirements in sorted order. -/
theorem schedLoop_nosplit {cfg : Cfg} {emap : String → Option String}
    {fuel : Nat} {T : List String} (hT : needCounters cfg T ≤ cfg.counters) :
    ∀ (objs : List CObj) (acc : SchedAcc),
      (∀ o ∈ objs, ∀ x ∈ o.evnum, x ∈ T) →
      (∀ x ∈ acc.curev, x ∈ T) →
      schedLoop cfg emap fuel acc objs =
        .ok ⟨acc.st, acc.curobj ++ objs.map (fun o => o.name),
             acc.curev ++ (objs.map (fun o => o.evnum)).flatten,
             acc.curlev ++ (objs.map (fun o => o.evlevels)).flatten⟩ := by
  intro objs
  induction objs with
  | nil =>
    intro acc _ _
    simp only [schedLoop, List.map_nil, List.flatten_nil, List.append_nil]
  | cons o rest ih =>
    intro acc hobjs hacc
    have hfit : ¬ (cfg.counters < needCounters cfg (acc.curev ++ o.evnum) ∧
        acc.curobj ≠ []) := by
      intro ⟨hlt, _⟩
      have hmono : needCounters cfg (acc.curev ++ o.evnum) ≤ needCounters cfg T := by
        apply needCounters_mono
        intro a ha
        rcases List.mem_append.mp ha with h | h
        · exact hacc a h
        · exact hobjs o (List.mem_cons_self _ _) a h
      omega
    simp only [schedLoop, schedStep]
    rw [if_neg hfit]
    show schedLoop cfg emap fuel
        ⟨acc.st, acc.curobj ++ [o.name], acc.curev ++ o.evnum,
         acc.curlev ++ o.evlevels⟩ rest = _
    rw [ih ⟨acc.st, acc.curobj ++ [o.name], acc.curev ++ o.evnum,
        acc.curlev ++ o.evlevels⟩
      (fun o' ho' x hx => hobjs o' (List.mem_cons_of_mem _ ho') x hx)
      (fun x hx => by
        rcases List.mem_append.mp hx with h | h
        · exact hacc x h
        · exact hobjs o (List.mem_cons_self _ _) x h)]
    simp [List.append_assoc]

/-- Success observable for the scheduler. -/
def isOkE (x : Except SErr RunnerS) : Bool :=
  match x with
  | .ok _ => true
  | .error _ => false

theorem forall2_mem_right {P : α → β → Prop} :
    ∀ {l : List α} {r : List β}, List.Forall₂ P l r → ∀ b ∈ r, ∃ a ∈ l, P a b := by
  intro l r h
  induction h with
  | nil => intro b hb; cases hb
  | cons hab _ ih =>
    intro b hb
    rcases List.mem_cons.mp hb with rfl | hb
    · exact ⟨_, List.mem_cons_self _ _, hab⟩
    · obtain ⟨a, ha, hPa⟩ := ih b hb
      exact ⟨a, List.mem_cons_of_mem _ ha, hPa⟩

/-- `Runner.collect` leaves each node with the resolution of its own
requirement list. -/
theorem collect_wf {cfg : Cfg} {emap : String → Option String}
    {objs : List Obj} {cobjs : List CObj}
    (h : Runner.collect cfg emap objs = .ok cobjs) :
    ∀ co ∈ cobjs, raw_events cfg emap (get_names co.evlevels) = .ok co.evnum := by
  intro co hco
  obtain ⟨o, _, hP⟩ := forall2_mem_right (mapME_forall2 h) co hco
  cases hre : raw_events cfg emap (get_names (dedupF o.declared)) with
  | error e => rw [hre] at hP; cases hP
  | ok evnum =>
    rw [hre] at hP
    cases hP
    exact hre

theorem rawTotal_of_raw_events {cfg : Cfg} {emap : String → Option String}
    {names rs : List String} (h : raw_events cfg emap names = .ok rs) :
    ∀ i ∈ names, ∃ r, raw_event cfg emap i = .ok r := by
  intro i hi
  have hfa := mapME_forall2 h
  clear h
  induction hfa with
  | nil => cases hi
  | cons hab _ ih =>
    rcases List.mem_cons.mp hi with rfl | hi
    · exact ⟨_, hab⟩
    · exact ih hi

theorem mapME_total {f : α → Except SErr β} :
    ∀ {l : List α}, (∀ a ∈ l, ∃ b, f a = .ok b) → ∃ r, mapME f l = .ok r := by
  intro l
  induction l with
  | nil => intro _; exact ⟨[], rfl⟩
  | cons a t ih =>
    intro h
    obtain ⟨b, hb⟩ := h a (List.mem_cons_self _ _)
    obtain ⟨r, hr⟩ := ih (fun a' ha' => h a' (List.mem_cons_of_mem _ ha'))
    refine ⟨b :: r, ?_⟩
    simp only [mapME, hb, hr]

theorem urmObj_total {cfg : Cfg} {emap : String → Option String}
    {evnum : List String} {base : Nat} :
    ∀ {levs : List (String × Nat)} {rm : ResMap},
      (∀ p ∈ levs, ∃ r, raw_event cfg emap p.1 = .ok r) →
      ∃ rm', urmObj cfg emap evnum base levs rm = .ok rm' := by
  intro levs
  induction levs with
  | nil => intro rm _; exact ⟨rm, rfl⟩
  | cons lev rest ih =>
    intro rm h
    obtain ⟨r, hr⟩ := h lev (List.mem_cons_self _ _)
    obtain ⟨rm', hrm'⟩ := @ih (if evnum.contains r then
        rmSet rm lev (base + evnum.indexOf r) else rm)
      (fun p hp => h p (List.mem_cons_of_mem _ hp))
    refine ⟨rm', ?_⟩
    simp only [urmObj, hr, hrm']

theorem urm_total {cfg : Cfg} {emap : String → Option String}
    {ev2 objl : List String} {base : Nat} {st : RunnerS}
    (hwf : ∀ p ∈ st.objs, ∀ q ∈ (p : CObj × ResMap).1.evlevels,
      ∃ r, raw_event cfg emap q.1 = .ok r) :
    ∃ stu, update_res_map cfg emap ev2 objl base st = .ok stu ∧
      stu.evnum = st.evnum ∧ stu.groups = st.groups ∧ stu.evstr = st.evstr ∧
      stu.nsplit = st.nsplit := by
  obtain ⟨objs', hobjs'⟩ := mapME_total (l := st.objs)
    (f := fun co : CObj × ResMap =>
      if objl.contains co.1.name then
        match urmObj cfg emap ev2 base co.1.evlevels co.2 with
        | .error e => .error e
        | .ok rm' => .ok (co.1, rm')
      else .ok co)
    (by
      intro a ha
      by_cases hc : objl.contains a.1.name = true
      · obtain ⟨rm', hrm'⟩ := @urmObj_total _ _ ev2 base _ a.2 (hwf a ha)
        refine ⟨(a.1, rm'), ?_⟩
        show (if objl.contains a.1.name = true then
            match urmObj cfg emap ev2 base a.1.evlevels a.2 with
            | Except.error e => (Except.error e : Except SErr (CObj × ResMap))
            | Except.ok rm' => Except.ok (a.1, rm')
          else Except.ok a) = _
        rw [hc, if_pos rfl, hrm']
      · refine ⟨a, ?_⟩
        show (if objl.contains a.1.name = true then
            match urmObj cfg emap ev2 base a.1.evlevels a.2 with
            | Except.error e => (Except.error e : Except SErr (CObj × ResMap))
            | Except.ok rm' => Except.ok (a.1, rm')
          else Except.ok a) = _
        rw [if_neg (by simpa using hc)])
  refine ⟨{ st with objs := objs' }, ?_, rfl, rfl, rfl, rfl⟩
  unfold update_res_map
  rw [hobjs']

/-- `update_res_map` only touches the IndexMaps. -/
theorem urm_preserves {cfg : Cfg} {emap : String → Option String}
    {ev2 objl : List String} {base : Nat} {st stu : RunnerS}
    (h : update_res_map cfg emap ev2 objl base st = .ok stu) :
    stu.evnum = st.evnum ∧ stu.groups = st.groups := by
  unfold update_res_map at h
  cases hm : mapME (fun co : CObj × ResMap =>
      if objl.contains co.1.name then
        match urmObj cfg emap ev2 base co.1.evlevels co.2 with
        | .error e => .error e
        | .ok rm' => .ok (co.1, rm')
      else .ok co) st.objs with
  | error e => rw [hm] at h; cases h
  | ok objs' => rw [hm] at h; cases h; exact ⟨rfl, rfl⟩

/-- A fitting, non-empty batch flushes: `Runner.add` succeeds and appends
exactly one deduplicated CounterGroup. -/
theorem add_flush_ok {cfg : Cfg} {emap : String → Option String}
    {st : RunnerS} {objl evnum : List String} {evlev : List (String × Nat)}
    {fuel : Nat}
    (hne : evlev ≠ []) (hfit : ¬ cfg.counters < needCounters cfg evnum)
    (hwf : ∀ p ∈ st.objs, ∀ q ∈ (p : CObj × ResMap).1.evlevels,
      ∃ r, raw_event cfg emap q.1 = .ok r) :
    ∃ stu, update_res_map cfg emap (dedupF evnum) objl st.evnum.length st = .ok stu ∧
      stu.evnum = st.evnum ∧ stu.groups = st.groups ∧
      Runner.add cfg emap (fuel + 1) st objl evnum evlev =
        .ok { stu with
              evnum := stu.evnum ++ dedupF evnum,
              evstr := if stu.evstr ≠ "" then
                         stu.evstr ++ "," ++ event_group cfg (dedupF evnum)
                       else event_group cfg (dedupF evnum),
              groups := stu.groups ++ [dedupF evnum] } := by
  obtain ⟨stu, hu, he, hg, _, _⟩ :=
    @urm_total _ _ (dedupF evnum) objl st.evnum.length st hwf
  refine ⟨stu, hu, he, hg, ?_⟩
  rw [Runner.add, if_neg hne, if_neg hfit]
  have hd1 : (dedup2 evnum evlev).1 = dedupF evnum := rfl
  rw [hd1, hu]

theorem mem_flatten_map_evnum {cobjs : List CObj} {x : String} :
    x ∈ (cobjs.map (fun co => co.evnum)).flatten ↔
      ∃ co ∈ cobjs, x ∈ co.evnum := by
  rw [List.mem_flatten]
  constructor
  · rintro ⟨s, hs, hx⟩
    obtain ⟨co, hco, rfl⟩ := List.mem_map.mp hs
    exact ⟨co, hco, hx⟩
  · rintro ⟨co, hco, hx⟩
    exact ⟨co.evnum, List.mem_map.mpr ⟨co, hco, rfl⟩, hx⟩

/-- Claim C2: when the total distinct non-fixed event count of all
registered nodes fits the counter budget, `Runner.schedule` succeeds and
emits exactly one CounterGroup, whose event list is deduplicated and holds
exactly the union of all raw events resolved from the nodes' declared
requirements. -/
theorem claim_C2 (cfg : Cfg) (emap : String → Option String) (fuel : Nat)
    (objs : List Obj) (cobjs : List CObj)
    (hc : Runner.collect cfg emap objs = .ok cobjs)
    (hne : cobjs ≠ [])
    (hlevne : ∀ co ∈ cobjs, co.evlevels ≠ [])
    (hbudget : needCounters cfg ((cobjs.map (fun co => co.evnum)).flatten)
      ≤ cfg.counters) :
    isOkE (Runner.schedule cfg emap (fuel + 1) cobjs) = true ∧
    ∀ st', Runner.schedule cfg emap (fuel + 1) cobjs = .ok st' →
      st'.groups.length = 1 ∧
      (∀ g ∈ st'.groups, g.Nodup) ∧
      (∀ x, x ∈ st'.groups.flatten ↔
        x ∈ (cobjs.map (fun co => co.evnum)).flatten) := by
  have hsub : ∀ o ∈ sortObjs cobjs, ∀ x ∈ o.evnum,
      x ∈ (cobjs.map (fun co => co.evnum)).flatten := by
    intro o ho x hx
    exact mem_flatten_map_evnum.mpr ⟨o, sortObjs_mem.mp ho, hx⟩
  have hloop := @schedLoop_nosplit cfg emap (fuel + 1) _ hbudget
    (sortObjs cobjs)
    ⟨⟨[], "", [], 0, cobjs.map (fun co => (co, ([] : List ((String × Nat) × Nat))))⟩,
     [], [], []⟩
    hsub (by intro x hx; cases hx)
  obtain ⟨o0, ho0⟩ : ∃ o, o ∈ cobjs := List.exists_mem_of_ne_nil _ hne
  have ho0s : o0 ∈ sortObjs cobjs := sortObjs_mem.mpr ho0
  have hnames : (sortObjs cobjs).map (fun o => o.name) ≠ [] := by
    intro hcon
    rw [List.map_eq_nil_iff] at hcon
    rw [hcon] at ho0s
    cases ho0s
  have hflatlev : ((sortObjs cobjs).map (fun o => o.evlevels)).flatten ≠ [] := by
    obtain ⟨p0, hp0⟩ : ∃ p, p ∈ o0.evlevels :=
      List.exists_mem_of_ne_nil _ (hlevne o0 ho0)
    intro hcon
    have : p0 ∈ ((sortObjs cobjs).map (fun o => o.evlevels)).flatten :=
      List.mem_flatten.mpr ⟨o0.evlevels, List.mem_map.mpr ⟨o0, ho0s, rfl⟩, hp0⟩
    rw [hcon] at this
    cases this
  have hfitF : ¬ cfg.counters <
      needCounters cfg ((List.map (fun o => o.evnum) (sortObjs cobjs)).flatten) := by
    have hmono : needCounters cfg ((List.map (fun o => o.evnum) (sortObjs cobjs)).flatten)
        ≤ needCounters cfg ((cobjs.map (fun co => co.evnum)).flatten) := by
      apply needCounters_mono
      intro a ha
      obtain ⟨co, hco, hx⟩ := mem_flatten_map_evnum.mp ha
      exact mem_flatten_map_evnum.mpr ⟨co, sortObjs_mem.mp hco, hx⟩
    omega
  have hwfO : ∀ p ∈ (cobjs.map (fun co =>
        (co, ([] : List ((String × Nat) × Nat))))),
      ∀ q ∈ (p : CObj × ResMap).1.evlevels, ∃ r, raw_event cfg emap q.1 = .ok r := by
    intro p hp q hq
    obtain ⟨co, hco, rfl⟩ := List.mem_map.mp hp
    exact rawTotal_of_raw_events (collect_wf hc co hco) q.1
      (List.mem_map.mpr ⟨q, hq, rfl⟩)
  obtain ⟨stu, hu, he, hg, hadd⟩ := @add_flush_ok cfg emap
    ⟨[], "", [], 0, cobjs.map (fun co =>
      (co, ([] : List ((String × Nat) × Nat))))⟩
    ((sortObjs cobjs).map (fun o => o.name))
    (((sortObjs cobjs).map (fun o => o.evnum)).flatten)
    (((sortObjs cobjs).map (fun o => o.evlevels)).flatten)
    fuel hflatlev hfitF hwfO
  have hsched : Runner.schedule cfg emap (fuel + 1) cobjs =
      .ok { stu with
            evnum := stu.evnum ++
              dedupF ((List.map (fun o => o.evnum) (sortObjs cobjs)).flatten),
            evstr := if stu.evstr ≠ "" then
                stu.evstr ++ "," ++ event_group cfg
                  (dedupF ((List.map (fun o => o.evnum) (sortObjs cobjs)).flatten))
              else event_group cfg
                (dedupF ((List.map (fun o => o.evnum) (sortObjs cobjs)).flatten)),
            groups := stu.groups ++
              [dedupF ((List.map (fun o => o.evnum) (sortObjs cobjs)).flatten)] } := by
    unfold Runner.schedule
    rw [hloop]
    show (if ([] : List String) ++ (sortObjs cobjs).map (fun o => o.name) ≠ [] then
        Runner.add cfg emap (fuel + 1)
          ⟨[], "", [], 0, cobjs.map (fun co =>
            (co, ([] : List ((String × Nat) × Nat))))⟩
          ([] ++ (sortObjs cobjs).map (fun o => o.name))
          ([] ++ (List.map (fun o => o.evnum) (sortObjs cobjs)).flatten)
          ([] ++ (List.map (fun o => o.evlevels) (sortObjs cobjs)).flatten)
      else _) = _
    rw [if_pos (by simpa using hnames)]
    simp only [List.nil_append]
    exact hadd
  refine ⟨by rw [hsched]; rfl, ?_⟩
  intro st' hst'
  rw [hsched] at hst'
  cases hst'
  have hgroups : stu.groups = [] := by rw [hg]
  refine ⟨?_, ?_, ?_⟩
  · show (stu.groups ++ [_]).length = 1
    rw [hgroups]
    rfl
  · intro g hgmem
    show g.Nodup
    rw [hgroups] at hgmem
    simp only [List.nil_append, List.mem_singleton] at hgmem
    subst hgmem
    exact dedupF_nodup
  · intro x
    show x ∈ (stu.groups ++ [_]).flatten ↔ _
    rw [hgroups]
    simp only [List.nil_append, List.flatten, List.append_nil]
    rw [dedupF_mem]
    constructor
    · intro hx
      obtain ⟨co, hco, hmem⟩ := mem_flatten_map_evnum.mp hx
      exact mem_flatten_map_evnum.mpr ⟨co, sortObjs_mem.mp hco, hmem⟩
    · intro hx
      obtain ⟨co, hco, hmem⟩ := mem_flatten_map_evnum.mp hx
      exact mem_flatten_map_evnum.mpr ⟨co, sortObjs_mem.mpr hco, hmem⟩

set_option maxHeartbeats 2000000 in
/-- Witness for C2: nodes `A` (`evx1`) and `B` (`evx1`, `evx2`) under a
budget of 4 schedule into exactly one CounterGroup `[evx1, evx2]`. -/
theorem claim_C2_witness :
    Runner.collect { counters := 4, group_support := true } (fun _ => none)
        [⟨"A", 1, [("evx1", 1)]⟩, ⟨"B", 1, [("evx1", 1), ("evx2", 1)]⟩] =
      .ok [⟨"A", 1, [("evx1", 1)], ["evx1"], 1⟩,
           ⟨"B", 1, [("evx1", 1), ("evx2", 1)], ["evx1", "evx2"], 2⟩] ∧
    isOkE (Runner.schedule { counters := 4, group_support := true } (fun _ => none)
        (19 + 1)
        [⟨"A", 1, [("evx1", 1)], ["evx1"], 1⟩,
         ⟨"B", 1, [("evx1", 1), ("evx2", 1)], ["evx1", "evx2"], 2⟩]) = true ∧
    Runner.schedule { counters := 4, group_support := true } (fun _ => none) (19 + 1)
        [⟨"A", 1, [("evx1", 1)], ["evx1"], 1⟩,
         ⟨"B", 1, [("evx1", 1), ("evx2", 1)], ["evx1", "evx2"], 2⟩] =
      .ok ⟨["evx1", "evx2"], "\x7bevx1,evx2\x7d", [["evx1", "evx2"]], 0,
        [(⟨"A", 1, [("evx1", 1)], ["evx1"], 1⟩, [(("evx1", 1), 0)]),
         (⟨"B", 1, [("evx1", 1), ("evx2", 1)], ["evx1", "evx2"], 2⟩,
          [(("evx2", 1), 1), (("evx1", 1), 0)])]⟩ ∧
    (⟨["evx1", "evx2"], "\x7bevx1,evx2\x7d", [["evx1", "evx2"]], 0,
        [(⟨"A", 1, [("evx1", 1)], ["evx1"], 1⟩, [(("evx1", 1), 0)]),
         (⟨"B", 1, [("evx1", 1), ("evx2", 1)], ["evx1", "evx2"], 2⟩,
          [(("evx2", 1), 1), (("evx1", 1), 0)])]⟩ : RunnerS).groups.length = 1 := by
  have h := claim_C2 { counters := 4, group_support := true } (fun _ => none) 19
    [⟨"A", 1, [("evx1", 1)]⟩, ⟨"B", 1, [("evx1", 1), ("evx2", 1)]⟩]
    [⟨"A", 1, [("evx1", 1)], ["evx1"], 1⟩,
     ⟨"B", 1, [("evx1", 1), ("evx2", 1)], ["evx1", "evx2"], 2⟩]
    (by decide) (by decide) (by decide) (by decide)
  have heq : Runner.schedule { counters := 4, group_support := true } (fun _ => none)
      (19 + 1)
      [⟨"A", 1, [("evx1", 1)], ["evx1"], 1⟩,
       ⟨"B", 1, [("evx1", 1), ("evx2", 1)], ["evx1", "evx2"], 2⟩] =
    .ok ⟨["evx1", "evx2"], "\x7bevx1,evx2\x7d", [["evx1", "evx2"]], 0,
      [(⟨"A", 1, [("evx1", 1)], ["evx1"], 1⟩, [(("evx1", 1), 0)]),
       (⟨"B", 1, [("evx1", 1), ("evx2", 1)], ["evx1", "evx2"], 2⟩,
        [(("evx2", 1), 1), (("evx1", 1), 0)])]⟩ := by decide
  exact ⟨by decide, h.1, heq, (h.2 _ heq).1⟩

/-- Resolution of a requirement's mnemonic (total form). -/
def rawOfFst (cfg : Cfg) (emap : String → Option String) (p : String × Nat) :
    String := rawOf cfg emap p.1

/-- Postcondition of one (possibly splitting) submission to the scheduler:
some batch of CounterGroups is appended, each within the counter budget,
whose union is exactly the submitted raw-event set, and the global flat
list grows by exactly their concatenation. -/
def SpecPost (cfg : Cfg) (st st' : RunnerS) (rs : List String) : Prop :=
  ∃ gs, st'.groups = st.groups ++ gs ∧
    (∀ g ∈ gs, needCounters cfg g ≤ cfg.counters) ∧
    (∀ x, x ∈ gs.flatten ↔ x ∈ rs) ∧
    st'.evnum = st.evnum ++ gs.flatten

theorem raws_eq_map {cfg : Cfg} {emap : String → Option String}
    {names rs : List String} (h : raw_events cfg emap names = .ok rs) :
    rs = names.map (rawOf cfg emap) := by
  have hfa := mapME_forall2 h
  clear h
  induction hfa with
  | nil => rfl
  | cons hab _ ih =>
    simp only [List.map_cons, ← ih]
    congr 1
    unfold rawOf
    rw [hab]

theorem le_foldl_max : ∀ (l : List Nat) (a : Nat),
    a ≤ l.foldl max a ∧ ∀ x ∈ l, x ≤ l.foldl max a := by
  intro l
  induction l with
  | nil => intro a; exact ⟨Nat.le_refl a, fun x hx => absurd hx (List.not_mem_nil x)⟩
  | cons b t ih =>
    intro a
    refine ⟨Nat.le_trans (Nat.le_max_left a b) (ih (max a b)).1, ?_⟩
    intro x hx
    rcases List.mem_cons.mp hx with rfl | hx
    · exact Nat.le_trans (Nat.le_max_right a x) (ih (max a x)).1
    · exact (ih (max a b)).2 x hx

theorem specPost_trans {cfg : Cfg} {st1 st2 st3 : RunnerS} {rs1 rs2 : List String}
    (h1 : SpecPost cfg st1 st2 rs1) (h2 : SpecPost cfg st2 st3 rs2) :
    ∃ gs, st3.groups = st1.groups ++ gs ∧
      (∀ g ∈ gs, needCounters cfg g ≤ cfg.counters) ∧
      (∀ x, x ∈ gs.flatten ↔ (x ∈ rs1 ∨ x ∈ rs2)) ∧
      st3.evnum = st1.evnum ++ gs.flatten := by
  obtain ⟨gs1, hg1, hb1, hm1, he1⟩ := h1
  obtain ⟨gs2, hg2, hb2, hm2, he2⟩ := h2
  refine ⟨gs1 ++ gs2, ?_, ?_, ?_, ?_⟩
  · rw [hg2, hg1, List.append_assoc]
  · intro g hg
    rcases List.mem_append.mp hg with h | h
    · exact hb1 g h
    · exact hb2 g h
  · intro x
    rw [List.flatten_append, List.mem_append, hm1 x, hm2 x]
  · rw [he2, he1, List.flatten_append, List.append_assoc]

theorem level_mem_split {cfg : Cfg} {emap : String → Option String}
    {evlev : List (String × Nat)} {l : Nat} {ls' : List Nat} {x : String} :
    (x ∈ (evlev.filter (fun p => p.2 = l)).map (rawOfFst cfg emap) ∨
     x ∈ (evlev.filter (fun p => decide (p.2 ∈ ls'))).map (rawOfFst cfg emap)) ↔
    x ∈ (evlev.filter (fun p => decide (p.2 ∈ l :: ls'))).map (rawOfFst cfg emap) := by
  simp only [List.mem_map, List.mem_filter, List.mem_cons, decide_eq_true_eq]
  constructor
  · rintro (⟨p, ⟨hp, hl⟩, hx⟩ | ⟨p, ⟨hp, hl⟩, hx⟩)
    · exact ⟨p, ⟨hp, Or.inl (by simpa using hl)⟩, hx⟩
    · exact ⟨p, ⟨hp, Or.inr hl⟩, hx⟩
  · rintro ⟨p, ⟨hp, hl | hl⟩, hx⟩
    · exact Or.inl ⟨p, ⟨hp, by simpa using hl⟩, hx⟩
    · exact Or.inr ⟨p, ⟨hp, hl⟩, hx⟩

theorem spec_master (cfg : Cfg) (emap : String → Option String) : ∀ fuel : Nat,
    (∀ st objl evnum evlev st',
      Runner.add cfg emap fuel st objl evnum evlev = .ok st' →
      (∀ p ∈ evlev, ∃ r, raw_event cfg emap p.1 = .ok r) →
      evnum = evlev.map (rawOfFst cfg emap) →
      (∀ p ∈ evlev, 1 ≤ p.2) →
      SpecPost cfg st st' evnum) ∧
    (∀ st objl evlev st',
      Runner.split_groups cfg emap fuel st objl evlev = .ok st' →
      (∀ p ∈ evlev, ∃ r, raw_event cfg emap p.1 = .ok r) →
      (∀ p ∈ evlev, 1 ≤ p.2) →
      SpecPost cfg st st' (evlev.map (rawOfFst cfg emap))) ∧
    (∀ st objl evlev st',
      Runner.fillGroups cfg emap fuel st objl evlev = .ok st' →
      (∀ p ∈ evlev, ∃ r, raw_event cfg emap p.1 = .ok r) →
      (∀ p ∈ evlev, 1 ≤ p.2) →
      SpecPost cfg st st' (evlev.map (rawOfFst cfg emap))) ∧
    (∀ st objl evlev ls st',
      Runner.levelLoop cfg emap fuel st objl evlev ls = .ok st' →
      (∀ p ∈ evlev, ∃ r, raw_event cfg emap p.1 = .ok r) →
      (∀ p ∈ evlev, 1 ≤ p.2) →
      SpecPost cfg st st'
        ((evlev.filter (fun p => decide (p.2 ∈ ls))).map (rawOfFst cfg emap))) := by
  intro fuel
  induction fuel with
  | zero =>
    refine ⟨?_, ?_, ?_, ?_⟩
    · intro st objl evnum evlev st' h
      rw [Runner.add] at h
      cases h
    · intro st objl evlev st' h
      rw [Runner.split_groups] at h
      cases h
    · intro st objl evlev st' h
      rw [Runner.fillGroups] at h
      cases h
    · intro st objl evlev ls st' h
      rw [Runner.levelLoop] at h
      cases h
  | succ fuel ih =>
    obtain ⟨iha, ihs, ihf, ihl⟩ := ih
    refine ⟨?_, ?_, ?_, ?_⟩
    -- Runner.add
    · intro st objl evnum evlev st' h hwf hevn hlev
      rw [Runner.add] at h
      by_cases hnil : evlev = []
      · rw [if_pos hnil] at h
        cases h
      · rw [if_neg hnil] at h
        by_cases hfit : cfg.counters < needCounters cfg evnum
        · rw [if_pos hfit] at h
          rw [hevn]
          exact ihs st objl evlev st' h hwf hlev
        · rw [if_neg hfit] at h
          cases hu : update_res_map cfg emap (dedup2 evnum evlev).1 objl
              st.evnum.length st with
          | error e => rw [hu] at h; cases h
          | ok stu =>
            rw [hu] at h
            cases h
            obtain ⟨hse, hsg⟩ := urm_preserves hu
            refine ⟨[dedupF evnum], ?_, ?_, ?_, ?_⟩
            · show stu.groups ++ [(dedup2 evnum evlev).1] = st.groups ++ [dedupF evnum]
              rw [hsg]
              rfl
            · intro g hg
              simp only [List.mem_singleton] at hg
              subst hg
              have hcg : needCounters cfg (dedupF evnum) = needCounters cfg evnum :=
                needCounters_congr dedupF_toFinset
              omega
            · intro x
              simp only [List.flatten_cons, List.flatten_nil, List.append_nil]
              exact dedupF_mem
            · show stu.evnum ++ (dedup2 evnum evlev).1
                  = st.evnum ++ List.flatten [dedupF evnum]
              rw [hse]
              simp only [List.flatten_cons, List.flatten_nil, List.append_nil]
              rfl
    -- Runner.split_groups
    · intro st objl evlev st' h hwf hlev
      rw [Runner.split_groups] at h
      by_cases hsingle : (get_levels evlev).toFinset.card = 1
      · rw [if_pos hsingle] at h
        obtain ⟨gs, h1, h2, h3, h4⟩ :=
          ihf { st with nsplit := st.nsplit + 1 } objl evlev st' h hwf hlev
        exact ⟨gs, h1, h2, h3, h4⟩
      · rw [if_neg hsingle] at h
        have hcov : evlev.filter
            (fun p => decide (p.2 ∈ List.range' 1 ((get_levels evlev).foldl max 0)))
            = evlev := by
          apply List.filter_eq_self.mpr
          intro p hp
          simp only [decide_eq_true_eq]
          rw [List.mem_range'_1]
          refine ⟨hlev p hp, ?_⟩
          have hle : p.2 ≤ (get_levels evlev).foldl max 0 :=
            (le_foldl_max (get_levels evlev) 0).2 p.2 (List.mem_map.mpr ⟨p, hp, rfl⟩)
          omega
        have hspec := ihl { st with nsplit := st.nsplit + 1 } objl evlev
          (List.range' 1 ((get_levels evlev).foldl max 0)) st' h hwf hlev
        rw [hcov] at hspec
        obtain ⟨gs, h1, h2, h3, h4⟩ := hspec
        exact ⟨gs, h1, h2, h3, h4⟩
    -- Runner.fillGroups
    · intro st objl evlev st' h hwf hlev
      rw [Runner.fillGroups] at h
      by_cases hnil : evlev = []
      · rw [if_pos hnil] at h
        cases h
        subst hnil
        exact ⟨[], by simp, by simp, by simp, by simp⟩
      · rw [if_neg hnil] at h
        cases hre : raw_events cfg emap
            (get_names (evlev.take (num_non_fixed cfg (get_names evlev)))) with
        | error e => simp only [hre] at h; cases h
        | ok rs =>
          simp only [hre] at h
          cases ha : Runner.add cfg emap fuel st objl rs
              (evlev.take (num_non_fixed cfg (get_names evlev))) with
          | error e => simp only [ha] at h; cases h
          | ok st1 =>
            simp only [ha] at h
            have hrs : rs = (evlev.take (num_non_fixed cfg (get_names evlev))).map
                (rawOfFst cfg emap) := by
              rw [raws_eq_map hre]
              unfold get_names
              rw [List.map_map]
              rfl
            have s1 := iha st objl rs
              (evlev.take (num_non_fixed cfg (get_names evlev))) st1 ha
              (fun p hp => hwf p (List.mem_of_mem_take hp))
              hrs
              (fun p hp => hlev p (List.mem_of_mem_take hp))
            have s2 := ihf st1 objl
              (evlev.drop (num_non_fixed cfg (get_names evlev))) st' h
              (fun p hp => hwf p (List.mem_of_mem_drop hp))
              (fun p hp => hlev p (List.mem_of_mem_drop hp))
            obtain ⟨gs, h1, h2, h3, h4⟩ := specPost_trans s1 s2
            refine ⟨gs, h1, h2, ?_, h4⟩
            intro x
            rw [h3 x, hrs]
            rw [← List.mem_append, ← List.map_append, List.take_append_drop]
    -- Runner.levelLoop
    · intro st objl evlev ls st' h hwf hlev
      cases ls with
      | nil =>
        rw [Runner.levelLoop] at h
        cases h
        have hfe : evlev.filter (fun p => decide (p.2 ∈ ([] : List Nat))) = [] := by
          simp
        rw [hfe]
        exact ⟨[], by simp, by simp, by simp, by simp⟩
      | cons l ls' =>
        rw [Runner.levelLoop] at h
        by_cases hevl : evlev.filter (fun x => x.2 = l) ≠ []
        · rw [if_pos hevl] at h
          cases hre : raw_events cfg emap
              (get_names (evlev.filter (fun x => x.2 = l))) with
          | error e => simp only [hre] at h; cases h
          | ok rs =>
            simp only [hre] at h
            cases ha : Runner.add cfg emap fuel st objl rs
                (evlev.filter (fun x => x.2 = l)) with
            | error e => simp only [ha] at h; cases h
            | ok st1 =>
              simp only [ha] at h
              have hrs : rs = (evlev.filter (fun x => x.2 = l)).map
                  (rawOfFst cfg emap) := by
                rw [raws_eq_map hre]
                unfold get_names
                rw [List.map_map]
                rfl
              have s1 := iha st objl rs (evlev.filter (fun x => x.2 = l)) st1 ha
                (fun p hp => hwf p (List.mem_of_mem_filter hp))
                hrs
                (fun p hp => hlev p (List.mem_of_mem_filter hp))
              have s2 := ihl st1 objl evlev ls' st' h hwf hlev
              obtain ⟨gs, h1, h2, h3, h4⟩ := specPost_trans s1 s2
              refine ⟨gs, h1, h2, ?_, h4⟩
              intro x
              rw [h3 x, hrs]
              exact level_mem_split
        · rw [if_neg hevl] at h
          have hnol : ∀ p ∈ evlev, ¬ p.2 = l := by
            intro p hp hpl
            have : p ∈ evlev.filter (fun x => x.2 = l) :=
              List.mem_filter.mpr ⟨hp, by simpa using hpl⟩
            rw [not_not.mp hevl] at this
            cases this
          have hfeq : evlev.filter (fun p => decide (p.2 ∈ l :: ls'))
              = evlev.filter (fun p => decide (p.2 ∈ ls')) := by
            apply List.filter_congr
            intro p hp
            simp only [List.mem_cons, decide_eq_true_eq, decide_eq_decide]
            constructor
            · rintro (hpl | hpl)
              · exact absurd hpl (hnol p hp)
              · exact hpl
            · exact Or.inr
          rw [hfeq]
          exact ihl st objl evlev ls' st' h hwf hlev

/-- Well-formedness of a collected node: its `evnum` is the resolution of
its (deduplicated) requirement list, every requirement resolves, and every
declared level is at least 1. -/
def CObjWF (cfg : Cfg) (emap : String → Option String) (co : CObj) : Prop :=
  co.evnum = co.evlevels.map (rawOfFst cfg emap) ∧
  (∀ p ∈ co.evlevels, ∃ r, raw_event cfg emap p.1 = Except.ok r) ∧
  (∀ p ∈ co.evlevels, 1 ≤ p.2)

/-- Invariant of the first-fit loop accumulator: the pending `curev` is the
resolution of the pending `curlev`, all of whose entries resolve and have
level at least 1, and an empty pending object list means nothing pending. -/
def AccWF (cfg : Cfg) (emap : String → Option String) (acc : SchedAcc) : Prop :=
  acc.curev = acc.curlev.map (rawOfFst cfg emap) ∧
  (∀ p ∈ acc.curlev, ∃ r, raw_event cfg emap p.1 = Except.ok r) ∧
  (∀ p ∈ acc.curlev, 1 ≤ p.2) ∧
  (acc.curobj = [] → acc.curev = [])

theorem schedLoop_spec (cfg : Cfg) (emap : String → Option String) (fuel : Nat) :
    ∀ (objs : List CObj) (acc acc' : SchedAcc),
      schedLoop cfg emap fuel acc objs = Except.ok acc' →
      (∀ o ∈ objs, CObjWF cfg emap o) →
      AccWF cfg emap acc →
      AccWF cfg emap acc' ∧
      ∃ gs, acc'.st.groups = acc.st.groups ++ gs ∧
        (∀ g ∈ gs, needCounters cfg g ≤ cfg.counters) ∧
        (∀ x, (x ∈ gs.flatten ∨ x ∈ acc'.curev) ↔
          (x ∈ acc.curev ∨ x ∈ (objs.map (fun o => o.evnum)).flatten)) ∧
        acc'.st.evnum = acc.st.evnum ++ gs.flatten := by
  intro objs
  induction objs with
  | nil =>
    intro acc acc' h _ hacc
    rw [schedLoop] at h
    cases h
    exact ⟨hacc, [], by simp, by simp, by simp, by simp⟩
  | cons o rest ih =>
    intro acc acc' h hobjs hacc
    obtain ⟨he, hr, hl, hemp⟩ := hacc
    obtain ⟨hoe, hor, hol⟩ := hobjs o (List.mem_cons_self _ _)
    rw [schedLoop] at h
    simp only [schedStep] at h
    by_cases hflush : cfg.counters < needCounters cfg (acc.curev ++ o.evnum) ∧
        acc.curobj ≠ []
    · rw [if_pos hflush] at h
      cases hadd : Runner.add cfg emap fuel acc.st acc.curobj acc.curev acc.curlev with
      | error e =>
        rw [hadd] at h
        have h2 : (Except.error e : Except SErr SchedAcc) = Except.ok acc' := h
        cases h2
      | ok st1 =>
        rw [hadd] at h
        have h2 : schedLoop cfg emap fuel ⟨st1, [o.name], o.evnum, o.evlevels⟩ rest
            = Except.ok acc' := h
        obtain ⟨gs0, hg0, hb0, hm0, he0⟩ :=
          (spec_master cfg emap fuel).1 acc.st acc.curobj acc.curev acc.curlev st1
            hadd hr he hl
        obtain ⟨hwf', gs1, hg1, hb1, hm1, he1⟩ :=
          ih ⟨st1, [o.name], o.evnum, o.evlevels⟩ acc' h2
            (fun o' ho' => hobjs o' (List.mem_cons_of_mem _ ho'))
            ⟨hoe, hor, hol, fun hco => absurd hco (List.cons_ne_nil _ _)⟩
        have hg1' : acc'.st.groups = st1.groups ++ gs1 := hg1
        have he1' : acc'.st.evnum = st1.evnum ++ gs1.flatten := he1
        refine ⟨hwf', gs0 ++ gs1, ?_, ?_, ?_, ?_⟩
        · rw [hg1', hg0, List.append_assoc]
        · intro g hg
          rcases List.mem_append.mp hg with hh | hh
          · exact hb0 g hh
          · exact hb1 g hh
        · intro x
          have hm1x : (x ∈ gs1.flatten ∨ x ∈ acc'.curev) ↔
              (x ∈ o.evnum ∨ x ∈ (rest.map (fun o => o.evnum)).flatten) := hm1 x
          simp only [List.flatten_append, List.mem_append, List.map_cons,
            List.flatten_cons, or_assoc]
          rw [hm1x, hm0 x]
        · rw [he1', he0, List.flatten_append, List.append_assoc]
    · rw [if_neg hflush] at h
      have h2 : schedLoop cfg emap fuel
          ⟨acc.st, acc.curobj ++ [o.name], acc.curev ++ o.evnum,
           acc.curlev ++ o.evlevels⟩ rest = Except.ok acc' := h
      have hacc1 : AccWF cfg emap
          ⟨acc.st, acc.curobj ++ [o.name], acc.curev ++ o.evnum,
           acc.curlev ++ o.evlevels⟩ := by
        refine ⟨?_, ?_, ?_, ?_⟩
        · show acc.curev ++ o.evnum = (acc.curlev ++ o.evlevels).map _
          rw [List.map_append, ← he, ← hoe]
        · intro p hp
          rcases List.mem_append.mp hp with hh | hh
          · exact hr p hh
          · exact hor p hh
        · intro p hp
          rcases List.mem_append.mp hp with hh | hh
          · exact hl p hh
          · exact hol p hh
        · intro hco
          exact absurd hco (by simp)
      obtain ⟨hwf', gs, hg1, hb1, hm1, he1⟩ :=
        ih _ acc' h2 (fun o' ho' => hobjs o' (List.mem_cons_of_mem _ ho')) hacc1
      have hg1' : acc'.st.groups = acc.st.groups ++ gs := hg1
      have he1' : acc'.st.evnum = acc.st.evnum ++ gs.flatten := he1
      refine ⟨hwf', gs, hg1', hb1, ?_, he1'⟩
      intro x
      have hm1x : (x ∈ gs.flatten ∨ x ∈ acc'.curev) ↔
          (x ∈ acc.curev ++ o.evnum ∨ x ∈ (rest.map (fun o => o.evnum)).flatten) :=
        hm1 x
      rw [hm1x]
      simp only [List.map_cons, List.flatten_cons, List.mem_append, or_assoc]

/-- `Runner.collect` produces well-formed nodes whose `evnum` lists are the
resolutions of the deduplicated declared requirements. -/
theorem collect_props {cfg : Cfg} {emap : String → Option String}
    {objs : List Obj} {cobjs : List CObj}
    (h : Runner.collect cfg emap objs = Except.ok cobjs)
    (hlev : ∀ o ∈ objs, ∀ p ∈ o.declared, 1 ≤ p.2) :
    (∀ co ∈ cobjs, CObjWF cfg emap co) ∧
    cobjs.map (fun co => co.evnum) =
      objs.map (fun o => (dedupF o.declared).map (rawOfFst cfg emap)) := by
  have hfa := mapME_forall2 h
  clear h
  revert hlev
  induction hfa with
  | nil =>
    intro _
    exact ⟨fun co hco => absurd hco (List.not_mem_nil _), rfl⟩
  | cons hab htail ih =>
    intro hlev
    rename_i o co objs' cobjs'
    obtain ⟨hwfs, hmap⟩ := ih (fun o' ho' => hlev o' (List.mem_cons_of_mem _ ho'))
    cases hre : raw_events cfg emap (get_names (dedupF o.declared)) with
    | error e => rw [hre] at hab; cases hab
    | ok evnum =>
      rw [hre] at hab
      cases hab
      have hevq : evnum = (dedupF o.declared).map (rawOfFst cfg emap) := by
        rw [raws_eq_map hre]
        unfold get_names
        rw [List.map_map]
        rfl
      constructor
      · intro co' hco'
        rcases List.mem_cons.mp hco' with rfl | hh
        · refine ⟨hevq, ?_, ?_⟩
          · intro p hp
            exact rawTotal_of_raw_events hre p.1 (List.mem_map_of_mem _ hp)
          · intro p hp
            exact hlev o (List.mem_cons_self _ _) p (dedupF_mem.mp hp)
        · exact hwfs co' hh
      · simp only [List.map_cons, hmap, hevq]

/-- `Runner.schedule` on well-formed collected nodes: every emitted
CounterGroup fits the counter budget, and the union of the emitted groups
is exactly the union of the nodes' resolved event lists. -/
theorem schedule_spec {cfg : Cfg} {emap : String → Option String} {fuel : Nat}
    {cobjs : List CObj} {st' : RunnerS}
    (h : Runner.schedule cfg emap fuel cobjs = Except.ok st')
    (hwf : ∀ o ∈ cobjs, CObjWF cfg emap o) :
    (∀ g ∈ st'.groups, needCounters cfg g ≤ cfg.counters) ∧
    (∀ x, x ∈ st'.groups.flatten ↔ x ∈ (cobjs.map (fun o => o.evnum)).flatten) := by
  have hperm : ∀ x : String,
      x ∈ ((sortObjs cobjs).map (fun o => o.evnum)).flatten ↔
      x ∈ (cobjs.map (fun o => o.evnum)).flatten := by
    intro x
    simp only [List.mem_flatten, List.mem_map]
    constructor
    · rintro ⟨l, ⟨o, ho, rfl⟩, hx⟩
      exact ⟨o.evnum, ⟨o, sortObjs_mem.mp ho, rfl⟩, hx⟩
    · rintro ⟨l, ⟨o, ho, rfl⟩, hx⟩
      exact ⟨o.evnum, ⟨o, sortObjs_mem.mpr ho, rfl⟩, hx⟩
  rw [Runner.schedule] at h
  cases hsl : schedLoop cfg emap fuel
      ⟨⟨[], "", [], 0, cobjs.map (fun co => (co, ([] : List ((String × Nat) × Nat))))⟩,
       [], [], []⟩ (sortObjs cobjs) with
  | error e =>
    rw [hsl] at h
    have h2 : (Except.error e : Except SErr RunnerS) = Except.ok st' := h
    cases h2
  | ok acc =>
    rw [hsl] at h
    have h2 : (if acc.curobj ≠ [] then
        Runner.add cfg emap fuel acc.st acc.curobj acc.curev acc.curlev
      else Except.ok acc.st) = Except.ok st' := h
    obtain ⟨⟨he, hr, hl, hemp⟩, gs, hg, hb, hm, _⟩ :=
      schedLoop_spec cfg emap fuel (sortObjs cobjs)
        ⟨⟨[], "", [], 0, cobjs.map (fun co => (co, ([] : List ((String × Nat) × Nat))))⟩,
         [], [], []⟩ acc hsl
        (fun o ho => hwf o (sortObjs_mem.mp ho))
        ⟨rfl, fun p hp => absurd hp (List.not_mem_nil p),
         fun p hp => absurd hp (List.not_mem_nil p), fun _ => rfl⟩
    have hg' : acc.st.groups = gs := by
      have h3 : acc.st.groups = ([] : List (List String)) ++ gs := hg
      simpa using h3
    have hm' : ∀ x, (x ∈ gs.flatten ∨ x ∈ acc.curev) ↔
        (x ∈ ([] : List String) ∨
         x ∈ ((sortObjs cobjs).map (fun o => o.evnum)).flatten) := hm
    by_cases hne : acc.curobj ≠ []
    · rw [if_pos hne] at h2
      obtain ⟨gs2, hg2, hb2, hm2, _⟩ :=
        (spec_master cfg emap fuel).1 acc.st acc.curobj acc.curev acc.curlev st'
          h2 hr he hl
      constructor
      · intro g hgm
        rw [hg2, hg'] at hgm
        rcases List.mem_append.mp hgm with hh | hh
        · exact hb g hh
        · exact hb2 g hh
      · intro x
        rw [hg2, hg', List.flatten_append, List.mem_append, hm2 x, hm' x]
        simp only [List.not_mem_nil, false_or]
        exact hperm x
    · rw [if_neg hne] at h2
      cases h2
      have hcur : acc.curev = [] := hemp (not_not.mp hne)
      constructor
      · intro g hgm
        rw [hg'] at hgm
        exact hb g hgm
      · intro x
        rw [hg']
        have e1 := hm' x
        rw [hcur] at e1
        simp only [List.not_mem_nil, or_false, false_or] at e1
        rw [e1]
        exact hperm x

/-- C1: whenever `collect`+`schedule` succeed (all requirement levels being
at least 1, as `BreakdownNode.__init__` guarantees) and the distinct
non-fixed raw events declared by all nodes together exceed the counter
budget, the scheduler emits at least two CounterGroups, each CounterGroup's
distinct non-fixed event count is within `cpu.counters`, and the
deduplicated union of the emitted groups equals the deduplicated union of
the raw events resolved from every node's declared requirements. -/
theorem claim_C1 (cfg : Cfg) (emap : String → Option String) (fuel : Nat)
    (objs : List Obj) (st' : RunnerS)
    (h : runSchedule cfg emap fuel objs = Except.ok st')
    (hlev : ∀ o ∈ objs, ∀ p ∈ o.declared, 1 ≤ p.2)
    (hover : cfg.counters < needCounters cfg
      ((objs.map (fun o => (dedupF o.declared).map (rawOfFst cfg emap))).flatten)) :
    2 ≤ st'.groups.length ∧
    (∀ g ∈ st'.groups, needCounters cfg g ≤ cfg.counters) ∧
    (∀ x, x ∈ st'.groups.flatten ↔
      x ∈ (objs.map (fun o => (dedupF o.declared).map (rawOfFst cfg emap))).flatten) := by
  rw [runSchedule] at h
  cases hc : Runner.collect cfg emap objs with
  | error e => rw [hc] at h; cases h
  | ok cobjs =>
    rw [hc] at h
    obtain ⟨hwf, hmap⟩ := collect_props hc hlev
    obtain ⟨hbound, hmem⟩ := schedule_spec h hwf
    have hmemtot : ∀ x, x ∈ st'.groups.flatten ↔
        x ∈ (objs.map (fun o => (dedupF o.declared).map (rawOfFst cfg emap))).flatten := by
      intro x
      rw [hmem x, hmap]
    refine ⟨?_, hbound, hmemtot⟩
    by_contra hlt2
    have hlen : st'.groups.length ≤ 1 := by omega
    cases hgs : st'.groups with
    | nil =>
      have hpos : 0 < needCounters cfg
          ((objs.map (fun o => (dedupF o.declared).map (rawOfFst cfg emap))).flatten) := by
        omega
      unfold needCounters at hpos
      obtain ⟨x, hx⟩ := Finset.card_pos.mp hpos
      have hxt := List.mem_toFinset.mp (Finset.mem_sdiff.mp hx).1
      have hxg := (hmemtot x).mpr hxt
      rw [hgs] at hxg
      simp at hxg
    | cons g t =>
      have hlt : t.length = 0 := by
        rw [hgs] at hlen
        simp only [List.length_cons] at hlen
        omega
      have ht : t = [] := List.length_eq_zero.mp hlt
      subst ht
      have hgmem : g ∈ st'.groups := by
        rw [hgs]
        exact List.mem_cons_self _ _
      have hgb := hbound g hgmem
      have hseteq : g.toFinset =
          ((objs.map (fun o => (dedupF o.declared).map (rawOfFst cfg emap))).flatten).toFinset := by
        ext x
        simp only [List.mem_toFinset]
        have hx := hmemtot x
        rw [hgs] at hx
        simpa using hx
      have hcongr := @needCounters_congr cfg _ _ hseteq
      omega

set_option maxHeartbeats 2000000 in
/-- Witness for C1: with a counter budget of 1, nodes `A` (declaring
`evx1`) and `B` (declaring `evx1` and `evx2`) together need 2 distinct
non-fixed events, exceeding the budget; the scheduler succeeds and emits
at least two CounterGroups, each within the budget, whose union is exactly
the declared union. -/
theorem claim_C1_witness :
    ∃ st', runSchedule { counters := 1, group_support := false } (fun _ => none) 20
        [⟨"A", 1, [("evx1", 1)]⟩, ⟨"B", 1, [("evx1", 1), ("evx2", 1)]⟩] =
        Except.ok st' ∧
      2 ≤ st'.groups.length ∧
      (∀ g ∈ st'.groups,
        needCounters { counters := 1, group_support := false } g ≤ 1) ∧
      (∀ x, x ∈ st'.groups.flatten ↔
        x ∈ (([⟨"A", 1, [("evx1", 1)]⟩,
               ⟨"B", 1, [("evx1", 1), ("evx2", 1)]⟩] : List Obj).map
          (fun o => (dedupF o.declared).map
            (rawOfFst { counters := 1, group_support := false }
              (fun _ => none)))).flatten) := by
  have hrun : runSchedule { counters := 1, group_support := false } (fun _ => none) 20
      [⟨"A", 1, [("evx1", 1)]⟩, ⟨"B", 1, [("evx1", 1), ("evx2", 1)]⟩] =
      Except.ok (⟨["evx1", "evx1", "evx2"], "evx1,evx1,evx2",
        [["evx1"], ["evx1"], ["evx2"]], 1,
        [(⟨"A", 1, [("evx1", 1)], ["evx1"], 1⟩, [(("evx1", 1), 0)]),
         (⟨"B", 1, [("evx1", 1), ("evx2", 1)], ["evx1", "evx2"], 2⟩,
          [(("evx2", 1), 2), (("evx1", 1), 1)])]⟩ : RunnerS) := by decide
  have h := claim_C1 { counters := 1, group_support := false } (fun _ => none) 20
    [⟨"A", 1, [("evx1", 1)]⟩, ⟨"B", 1, [("evx1", 1), ("evx2", 1)]⟩]
    (⟨["evx1", "evx1", "evx2"], "evx1,evx1,evx2",
        [["evx1"], ["evx1"], ["evx2"]], 1,
        [(⟨"A", 1, [("evx1", 1)], ["evx1"], 1⟩, [(("evx1", 1), 0)]),
         (⟨"B", 1, [("evx1", 1), ("evx2", 1)], ["evx1", "evx2"], 2⟩,
          [(("evx2", 1), 2), (("evx1", 1), 1)])]⟩ : RunnerS)
    hrun (by decide) (by decide)
  exact ⟨_, hrun, h.1, h.2.1, h.2.2⟩

/-- `raw_event` never runs out of modelled fuel: its only failure is the
`sys.exit` report. -/
theorem raw_event_nf {cfg : Cfg} {emap : String → Option String} {i : String} :
    raw_event cfg emap i ≠ Except.error SErr.fuelOut := by
  intro h
  unfold raw_event at h
  by_cases hdot : i.data.contains '.' = true
  · rw [if_pos hdot] at h
    cases hlk : fixed_counters.lookup i with
    | some v => simp only [hlk] at h; cases h
    | none =>
      simp only [hlk] at h
      cases hem : emap i with
      | none =>
        simp only [hem] at h
        by_cases hf : cfg.force = true
        · rw [if_pos hf] at h; cases h
        · rw [if_neg hf] at h; cases h
      | some out => simp only [hem] at h; cases h
  · rw [if_neg hdot] at h
    cases h

/-- `mapME` preserves freedom from fuel exhaustion. -/
theorem mapME_nf {f : α → Except SErr β} :
    ∀ {l : List α}, (∀ a ∈ l, f a ≠ Except.error SErr.fuelOut) →
      mapME f l ≠ Except.error SErr.fuelOut := by
  intro l
  induction l with
  | nil => intro _ h; rw [mapME] at h; cases h
  | cons a t ih =>
    intro hall h
    rw [mapME] at h
    cases hfa : f a with
    | error e =>
      simp only [hfa] at h
      cases h
      exact hall a (List.mem_cons_self _ _) hfa
    | ok b =>
      simp only [hfa] at h
      cases hft : mapME f t with
      | error e =>
        simp only [hft] at h
        cases h
        exact ih (fun a' ha' => hall a' (List.mem_cons_of_mem _ ha')) hft
      | ok r => simp only [hft] at h; cases h

/-- `raw_events` never runs out of modelled fuel. -/
theorem raw_events_nf {cfg : Cfg} {emap : String → Option String}
    {l : List String} : raw_events cfg emap l ≠ Except.error SErr.fuelOut :=
  mapME_nf (fun _ _ => raw_event_nf)

/-- The IndexMap walk never runs out of modelled fuel. -/
theorem urmObj_nf {cfg : Cfg} {emap : String → Option String}
    {evnum : List String} {base : Nat} :
    ∀ {levs : List (String × Nat)} {rm : ResMap},
      urmObj cfg emap evnum base levs rm ≠ Except.error SErr.fuelOut := by
  intro levs
  induction levs with
  | nil => intro rm h; rw [urmObj] at h; cases h
  | cons lev rest ih =>
    intro rm h
    rw [urmObj] at h
    cases hre : raw_event cfg emap lev.1 with
    | error e =>
      simp only [hre] at h
      cases h
      exact raw_event_nf hre
    | ok r =>
      simp only [hre] at h
      exact ih h

/-- `update_res_map` never runs out of modelled fuel. -/
theorem update_res_map_nf {cfg : Cfg} {emap : String → Option String}
    {evnum objl : List String} {base : Nat} {st : RunnerS} :
    update_res_map cfg emap evnum objl base st ≠ Except.error SErr.fuelOut := by
  intro h
  unfold update_res_map at h
  cases hm : mapME (fun co : CObj × ResMap =>
      if objl.contains co.1.name then
        match urmObj cfg emap evnum base co.1.evlevels co.2 with
        | .error e => .error e
        | .ok rm' => .ok (co.1, rm')
      else .ok co) st.objs with
  | error e =>
    simp only [hm] at h
    cases h
    refine mapME_nf (fun co _ hco => ?_) hm
    by_cases hc : objl.contains co.1.name = true
    · rw [if_pos hc] at hco
      cases hu : urmObj cfg emap evnum base co.1.evlevels co.2 with
      | error e2 =>
        simp only [hu] at hco
        cases hco
        exact urmObj_nf hu
      | ok rm' => simp only [hu] at hco; cases hco
    · rw [if_neg hc] at hco
      cases hco
  | ok objs' => simp only [hm] at h; cases h

/-- A flush-branch `Runner.add` (the submitted events fit the budget) never
runs out of modelled fuel with any fuel at all: it does not recurse. -/
theorem add_flush_nf {cfg : Cfg} {emap : String → Option String}
    {fuel : Nat} {st : RunnerS} {objl evnum : List String}
    {evlev : List (String × Nat)} (hfuel : 1 ≤ fuel)
    (hfit : ¬ cfg.counters < needCounters cfg evnum) :
    Runner.add cfg emap fuel st objl evnum evlev ≠ Except.error SErr.fuelOut := by
  intro h
  cases fuel with
  | zero => omega
  | succ f =>
    rw [Runner.add] at h
    by_cases hnil : evlev = []
    · rw [if_pos hnil] at h; cases h
    · rw [if_neg hnil, if_neg hfit] at h
      cases hu : update_res_map cfg emap (dedup2 evnum evlev).1 objl
          st.evnum.length st with
      | error e =>
        simp only [hu] at h
        cases h
        exact update_res_map_nf hu
      | ok st2 => simp only [hu] at h; cases h

/-- The chunk carved off by `num_non_fixed` always fits the counter budget
once resolved, so the `Runner.add` it is passed to never re-enters
`Runner.split_groups`. -/
theorem chunk_fit {cfg : Cfg} {emap : String → Option String}
    {evlev : List (String × Nat)} {rs : List String}
    (h : raw_events cfg emap
      (get_names (evlev.take (num_non_fixed cfg (get_names evlev)))) =
      Except.ok rs) :
    needCounters cfg rs ≤ cfg.counters := by
  have h1 := needCounters_raw_le (mapME_forall2 h)
  have h2 : get_names (evlev.take (num_non_fixed cfg (get_names evlev))) =
      (get_names evlev).take (num_non_fixed cfg (get_names evlev)) := by
    unfold get_names
    rw [List.map_take]
  rw [h2] at h1
  exact le_trans h1 num_non_fixed_window

/-- The chunking loop terminates: each round removes a non-empty chunk
(`num_non_fixed` is at least `cpu.counters ≥ 1`) and its `Runner.add` does
not recurse, so fuel `len + 2` suffices. -/
theorem fill_nf {cfg : Cfg} {emap : String → Option String}
    (hc : 1 ≤ cfg.counters) :
    ∀ (len fuel : Nat) (st : RunnerS) (objl : List String)
      (evlev : List (String × Nat)),
      evlev.length ≤ len → len + 2 ≤ fuel →
      Runner.fillGroups cfg emap fuel st objl evlev ≠
        Except.error SErr.fuelOut := by
  intro len
  induction len with
  | zero =>
    intro fuel st objl evlev hlen hfuel h
    have hnil : evlev = [] := List.length_eq_zero.mp (Nat.le_zero.mp hlen)
    subst hnil
    cases fuel with
    | zero => omega
    | succ f =>
      rw [Runner.fillGroups, if_pos rfl] at h
      cases h
  | succ len ih =>
    intro fuel st objl evlev hlen hfuel h
    cases fuel with
    | zero => omega
    | succ f =>
      rw [Runner.fillGroups] at h
      by_cases hnil : evlev = []
      · rw [if_pos hnil] at h; cases h
      · rw [if_neg hnil] at h
        cases hre : raw_events cfg emap
            (get_names (evlev.take (num_non_fixed cfg (get_names evlev)))) with
        | error e =>
          simp only [hre] at h
          cases h
          exact raw_events_nf hre
        | ok rs =>
          simp only [hre] at h
          cases ha : Runner.add cfg emap f st objl rs
              (evlev.take (num_non_fixed cfg (get_names evlev))) with
          | error e =>
            simp only [ha] at h
            cases h
            exact add_flush_nf (by omega)
              (by have := chunk_fit hre; omega) ha
          | ok st1 =>
            simp only [ha] at h
            have hnnf : 1 ≤ num_non_fixed cfg (get_names evlev) :=
              le_trans hc num_non_fixed_ge
            have hpos : 1 ≤ evlev.length := by
              cases evlev with
              | nil => exact absurd rfl hnil
              | cons _ _ => simp
            have hlen1 : (evlev.drop (num_non_fixed cfg (get_names evlev))).length
                ≤ len := by
              rw [List.length_drop]
              omega
            exact ih f st1 objl _ hlen1 (by omega) h

/-- A single-level batch's `Runner.add` terminates with fuel `len + 4`:
it re-enters `Runner.split_groups` at most once, straight into the
chunking loop. -/
theorem add_single_nf {cfg : Cfg} {emap : String → Option String}
    (hc : 1 ≤ cfg.counters) {l : Nat}
    {fuel : Nat} {st : RunnerS} {objl evnum : List String}
    {evlev : List (String × Nat)}
    (hall : ∀ p ∈ evlev, p.2 = l)
    (hfuel : evlev.length + 4 ≤ fuel) :
    Runner.add cfg emap fuel st objl evnum evlev ≠ Except.error SErr.fuelOut := by
  intro h
  cases fuel with
  | zero => omega
  | succ f =>
    rw [Runner.add] at h
    by_cases hnil : evlev = []
    · rw [if_pos hnil] at h; cases h
    · rw [if_neg hnil] at h
      by_cases hov : cfg.counters < needCounters cfg evnum
      · rw [if_pos hov] at h
        cases f with
        | zero => omega
        | succ g =>
          rw [Runner.split_groups] at h
          have hone : (get_levels evlev).toFinset.card = 1 := by
            have hset : (get_levels evlev).toFinset = {l} := by
              ext x
              simp only [get_levels, List.mem_toFinset, Finset.mem_singleton,
                List.mem_map]
              constructor
              · rintro ⟨p, hp, rfl⟩
                exact hall p hp
              · intro hx
                subst hx
                obtain ⟨p, hp⟩ := List.exists_mem_of_ne_nil evlev hnil
                exact ⟨p, hp, hall p hp⟩
            rw [hset]
            simp
          rw [if_pos hone] at h
          exact fill_nf hc evlev.length g _ objl evlev le_rfl (by omega) h
      · rw [if_neg hov] at h
        cases hu : update_res_map cfg emap (dedup2 evnum evlev).1 objl
            st.evnum.length st with
        | error e =>
          simp only [hu] at h
          cases h
          exact update_res_map_nf hu
        | ok st2 => simp only [hu] at h; cases h

/-- The per-level loop of `Runner.split_groups` terminates: each sub-batch
is single-level, so `ls.length + len + 5` fuel suffices. -/
theorem level_nf {cfg : Cfg} {emap : String → Option String}
    (hc : 1 ≤ cfg.counters) :
    ∀ (ls : List Nat) (fuel : Nat) (st : RunnerS) (objl : List String)
      (evlev : List (String × Nat)),
      ls.length + evlev.length + 5 ≤ fuel →
      Runner.levelLoop cfg emap fuel st objl evlev ls ≠
        Except.error SErr.fuelOut := by
  intro ls
  induction ls with
  | nil =>
    intro fuel st objl evlev hfuel h
    cases fuel with
    | zero => omega
    | succ f => rw [Runner.levelLoop] at h; cases h
  | cons l ls' ih =>
    intro fuel st objl evlev hfuel h
    simp only [List.length_cons] at hfuel
    cases fuel with
    | zero => omega
    | succ f =>
      rw [Runner.levelLoop] at h
      by_cases hne : evlev.filter (fun x => x.2 = l) ≠ []
      · rw [if_pos hne] at h
        cases hre : raw_events cfg emap
            (get_names (evlev.filter (fun x => x.2 = l))) with
        | error e =>
          simp only [hre] at h
          cases h
          exact raw_events_nf hre
        | ok rs =>
          simp only [hre] at h
          cases ha : Runner.add cfg emap f st objl rs
              (evlev.filter (fun x => x.2 = l)) with
          | error e =>
            simp only [ha] at h
            cases h
            have hflen : (evlev.filter (fun x => x.2 = l)).length ≤ evlev.length :=
              List.length_filter_le _ _
            exact add_single_nf hc
              (fun p hp => by simpa using (List.mem_filter.mp hp).2)
              (by omega) ha
          | ok st1 =>
            simp only [ha] at h
            exact ih f st1 objl evlev (by omega) h
      · rw [if_neg hne] at h
        exact ih f st objl evlev (by omega) h

/-- `Runner.split_groups` terminates with fuel `len + maxLevel + 6`. -/
theorem split_nf {cfg : Cfg} {emap : String → Option String}
    (hc : 1 ≤ cfg.counters) {fuel : Nat} {st : RunnerS} {objl : List String}
    {evlev : List (String × Nat)}
    (hfuel : evlev.length + (get_levels evlev).foldl max 0 + 6 ≤ fuel) :
    Runner.split_groups cfg emap fuel st objl evlev ≠
      Except.error SErr.fuelOut := by
  intro h
  cases fuel with
  | zero => omega
  | succ f =>
    rw [Runner.split_groups] at h
    by_cases hone : (get_levels evlev).toFinset.card = 1
    · rw [if_pos hone] at h
      exact fill_nf hc evlev.length f _ objl evlev le_rfl (by omega) h
    · rw [if_neg hone] at h
      have hrlen : (List.range' 1 ((get_levels evlev).foldl max 0)).length =
          (get_levels evlev).foldl max 0 := List.length_range' _ _ _
      exact level_nf hc (List.range' 1 ((get_levels evlev).foldl max 0)) f _
        objl evlev (by rw [hrlen]; omega) h

/-- `Runner.add` terminates with fuel `len + maxLevel + 7`. -/
theorem add_nf {cfg : Cfg} {emap : String → Option String}
    (hc : 1 ≤ cfg.counters) {fuel : Nat} {st : RunnerS}
    {objl evnum : List String} {evlev : List (String × Nat)}
    (hfuel : evlev.length + (get_levels evlev).foldl max 0 + 7 ≤ fuel) :
    Runner.add cfg emap fuel st objl evnum evlev ≠ Except.error SErr.fuelOut := by
  intro h
  cases fuel with
  | zero => omega
  | succ f =>
    rw [Runner.add] at h
    by_cases hnil : evlev = []
    · rw [if_pos hnil] at h; cases h
    · rw [if_neg hnil] at h
      by_cases hov : cfg.counters < needCounters cfg evnum
      · rw [if_pos hov] at h
        exact split_nf hc (by omega) h
      · rw [if_neg hov] at h
        cases hu : update_res_map cfg emap (dedup2 evnum evlev).1 objl
            st.evnum.length st with
        | error e =>
          simp only [hu] at h
          cases h
          exact update_res_map_nf hu
        | ok st2 => simp only [hu] at h; cases h

/-- C10 (amended): scheduling terminates for every counter budget of at
least 1.  `num_non_fixed` always returns at least 1, so the single-level
chunking loop strictly shrinks its requirement list; every chunk it passes
back to `Runner.add` fits the budget once resolved and therefore never
re-enters `Runner.split_groups`; and the whole mutual recursion finishes
within fuel `len + maxLevel + 7` (so it never exhausts any larger fuel).
Unlike the original claim, a per-level sub-batch may re-enter
`Runner.split_groups` once more — see the counterexample. -/
theorem claim_C10_amended (cfg : Cfg) (emap : String → Option String)
    (hc : 1 ≤ cfg.counters) :
    (∀ l : List String, 1 ≤ num_non_fixed cfg l) ∧
    (∀ (evlev : List (String × Nat)) (rs : List String),
      raw_events cfg emap
        (get_names (evlev.take (num_non_fixed cfg (get_names evlev)))) =
        Except.ok rs →
      needCounters cfg rs ≤ cfg.counters) ∧
    (∀ (fuel : Nat) (st : RunnerS) (objl evnum : List String)
       (evlev : List (String × Nat)),
      evlev.length + (get_levels evlev).foldl max 0 + 7 ≤ fuel →
      Runner.add cfg emap fuel st objl evnum evlev ≠
        Except.error SErr.fuelOut) := by
  refine ⟨?_, ?_, ?_⟩
  · intro l
    exact le_trans hc num_non_fixed_ge
  · intro evlev rs hre
    exact chunk_fit hre
  · intro fuel st objl evnum evlev hfuel
    exact add_nf hc hfuel

set_option maxHeartbeats 2000000 in
/-- Counterexample to C10's mechanism clause: submitting the multi-level
batch of node `C` (budget 1) enters `Runner.split_groups` twice
(`nsplit = 2`, not 1): the top-level split resubmits per-level sub-batches,
and the level-2 sub-batch `[bxe, bxf]` — passed back to `Runner.add` —
re-enters `Runner.split_groups` itself (its own `Runner.add` bumps
`nsplit` from 0 to 1), contradicting "each chunk or per-level sub-batch
passed back to Runner.add never re-enters Runner.split_groups". -/
theorem claim_C10_counterexample :
    Runner.add { counters := 1, group_support := false } (fun _ => none) 20
      ⟨[], "", [], 0,
       [(⟨"C", 1, [("axe", 1), ("bxe", 2), ("bxf", 2)],
          ["axe", "bxe", "bxf"], 3⟩, [])]⟩
      ["C"] ["axe", "bxe", "bxf"] [("axe", 1), ("bxe", 2), ("bxf", 2)] =
      Except.ok ⟨["axe", "bxe", "bxf"], "axe,bxe,bxf",
        [["axe"], ["bxe"], ["bxf"]], 2,
        [(⟨"C", 1, [("axe", 1), ("bxe", 2), ("bxf", 2)],
           ["axe", "bxe", "bxf"], 3⟩,
          [(("bxf", 2), 2), (("bxe", 2), 1), (("axe", 1), 0)])]⟩ ∧
    (get_levels [("axe", 1), ("bxe", 2), ("bxf", 2)]).toFinset.card = 2 ∧
    ([("axe", 1), ("bxe", 2), ("bxf", 2)] : List (String × Nat)).filter
      (fun x => x.2 = 2) = [("bxe", 2), ("bxf", 2)] ∧
    Runner.add { counters := 1, group_support := false } (fun _ => none) 17
      ⟨[], "", [], 0,
       [(⟨"C", 1, [("axe", 1), ("bxe", 2), ("bxf", 2)],
          ["axe", "bxe", "bxf"], 3⟩, [])]⟩
      ["C"] ["bxe", "bxf"] [("bxe", 2), ("bxf", 2)] =
      Except.ok ⟨["bxe", "bxf"], "bxe,bxf", [["bxe"], ["bxf"]], 1,
        [(⟨"C", 1, [("axe", 1), ("bxe", 2), ("bxf", 2)],
           ["axe", "bxe", "bxf"], 3⟩,
          [(("bxf", 2), 1), (("bxe", 2), 0)])]⟩ ∧
    (2 : Nat) ≠ 1 := by
  refine ⟨by decide, by decide, by decide, by decide, by decide⟩

/-- Witness for the amended C10: with budget 1, `num_non_fixed` is at least
1 and the multi-level batch of node `C` (length 3, max level 2) finishes
within the fuel bound `3 + 2 + 7 = 12`. -/
theorem claim_C10_witness :
    1 ≤ ({ counters := 1, group_support := false } : Cfg).counters ∧
    1 ≤ num_non_fixed { counters := 1, group_support := false }
      ["axe", "bxe", "bxf"] ∧
    ([("axe", 1), ("bxe", 2), ("bxf", 2)] : List (String × Nat)).length +
      (get_levels [("axe", 1), ("bxe", 2), ("bxf", 2)]).foldl max 0 + 7 ≤ 12 ∧
    Runner.add { counters := 1, group_support := false } (fun _ => none) 12
      ⟨[], "", [], 0,
       [(⟨"C", 1, [("axe", 1), ("bxe", 2), ("bxf", 2)],
          ["axe", "bxe", "bxf"], 3⟩, [])]⟩
      ["C"] ["axe", "bxe", "bxf"] [("axe", 1), ("bxe", 2), ("bxf", 2)] ≠
      Except.error SErr.fuelOut := by
  have h := claim_C10_amended { counters := 1, group_support := false }
    (fun _ => none) (by decide)
  exact ⟨by decide, h.1 ["axe", "bxe", "bxf"], by decide,
    h.2.2 12 _ ["C"] ["axe", "bxe", "bxf"]
      [("axe", 1), ("bxe", 2), ("bxf", 2)] (by decide)⟩
